import Mathlib

set_option maxRecDepth 10000

/-!
Verification development for the rust-docdb embedded document store.

The Rust sources are shallowly embedded:
* byte strings (`Vec<u8>`, `&[u8]`, `&str` payloads) become `List Nat`
  with bytes below 256 where it matters;
* `f64` values are represented by their IEEE-754 binary64 bit pattern
  (a `Nat` below `2^64`); the comparisons the code performs on floats
  (`>=`, `partial_cmp`) are modelled bit-exactly, including the special
  cases for NaN and the two zeroes;
* the sled key-value store becomes an association list from byte-string
  keys to stored values, with half-open `range(lo..hi)` scans;
* `rmp_serde` (de)serialization of document bodies is modelled as the
  identity on JSON values, which is faithful because the code only ever
  round-trips bodies through it;
* fallible operations return `Except`.
-/

namespace DocDb

/-- Byte strings: Rust `Vec<u8>` / `&[u8]`. -/
abbrev Bytes := List Nat

/-- Strict byte-wise lexicographic order on byte strings; this is the
`Ord` instance Rust uses for `Vec<u8>` and `&[u8]` (shorter prefixes sort
first). -/
def bytesLt : Bytes → Bytes → Bool
  | [], [] => false
  | [], _ :: _ => true
  | _ :: _, [] => false
  | a :: as, b :: bs => a < b || (a == b && bytesLt as bs)

/-- Non-strict byte-wise lexicographic order. -/
def bytesLe (a b : Bytes) : Bool := !(bytesLt b a)

/-! ### IEEE-754 binary64 bit-level model

An `f64` is represented by its 64-bit pattern. The sign is the top bit,
the magnitude the low 63 bits. A pattern is NaN when the exponent field
is all ones and the fraction is non-zero, i.e. when the magnitude
exceeds `0x7FF0000000000000` (the magnitude of infinity). -/

/-- Magnitude (low 63 bits) of the bit pattern of infinity. -/
def infBits : Nat := 0x7FF0000000000000

/-- The bit pattern is an IEEE-754 NaN. -/
def isNaNbits (bits : Nat) : Bool := decide (infBits < bits % 2 ^ 63)

/-- Rust `fl >= 0_f64` on the float with this bit pattern: true for
non-NaN patterns whose sign bit is clear, and for negative zero
(pattern `2^63`), since IEEE equates the two zeroes. -/
def f64ge0 (bits : Nat) : Bool :=
  !(isNaNbits bits) && decide (bits < 2 ^ 63 ∨ bits = 2 ^ 63)

/-- Rust `a < b` on `f64` (IEEE-754 less-than): false when either side
is NaN; negative values below non-negative ones except that the two
zeroes are equal; within a sign, magnitudes ascend for positives and
descend for negatives. -/
def f64lt (a b : Nat) : Bool :=
  if isNaNbits a || isNaNbits b then false
  else
    let sa := a / 2 ^ 63
    let ma := a % 2 ^ 63
    let sb := b / 2 ^ 63
    let mb := b % 2 ^ 63
    if sa = 0 then decide (sb = 0 ∧ ma < mb)
    else if sb = 0 then decide (ma ≠ 0 ∨ mb ≠ 0)
    else decide (mb < ma)

/-- Rust `a == b` on `f64`: bit equality, or both operands are zeroes
(of either sign); NaN is not equal to anything. -/
def f64eq (a b : Nat) : Bool :=
  !(isNaNbits a) && !(isNaNbits b) &&
    (a == b || (a % 2 ^ 63 == 0 && b % 2 ^ 63 == 0))

/-- Rust `a <= b` on `f64`. -/
def f64le (a b : Nat) : Bool := f64lt a b || f64eq a b

/-! ### TaggableValue (src/query.rs)

The source has both `String(String)` and `RcString(Rc<String>)`
variants; they carry the same payload and encode to identical bytes
(src/encoding.rs), so the model merges them into one `String`
constructor over the UTF-8 bytes. `Number(f64)` carries the bit
pattern. -/

inductive TaggableValue where
  | Null : TaggableValue
  | Bool (b : Bool) : TaggableValue
  | Number (bits : Nat) : TaggableValue
  | String (s : Bytes) : TaggableValue
deriving DecidableEq, Repr

/-- The engine's total order on scalar values: Null < Bool(false) <
Bool(true) < Number (IEEE numeric order) < String (byte-wise).
This matches the derived `PartialOrd` on `TaggableValue` restricted to
the scalar kinds (with `String`/`RcString` merged). -/
def tvLt : TaggableValue → TaggableValue → Bool
  | .Null, .Null => false
  | .Null, _ => true
  | .Bool _, .Null => false
  | .Bool a, .Bool b => !a && b
  | .Bool _, _ => true
  | .Number _, .Null => false
  | .Number _, .Bool _ => false
  | .Number a, .Number b => f64lt a b
  | .Number _, .String _ => true
  | .String a, .String b => bytesLt a b
  | .String _, _ => false

/-- Equality under the engine's order (structural except that numbers
use IEEE equality, so the two zeroes are equal and NaN equals nothing). -/
def tvEq : TaggableValue → TaggableValue → Bool
  | .Null, .Null => true
  | .Bool a, .Bool b => a == b
  | .Number a, .Number b => f64eq a b
  | .String a, .String b => a == b
  | _, _ => false

/-- Non-strict engine order. -/
def tvLe (a b : TaggableValue) : Bool := tvLt a b || tvEq a b

/-! ### Order-preserving encoding (src/encoding.rs) -/

/-- Big-endian byte string of the low `8*n` bits of `x`
(Rust `u64::to_be_bytes` for `n = 8`). -/
def beBytes : Nat → Nat → Bytes
  | 0, _ => []
  | n + 1, x => (x / 256 ^ n) % 256 :: beBytes n (x % 256 ^ n)

/-- The `JsonTag` bytes from src/encoding.rs. -/
def jsonTagNull : Nat := 0x28
def jsonTagFalse : Nat := 0x29
def jsonTagTrue : Nat := 0x2a
def jsonTagNumber : Nat := 0x2b
def jsonTagString : Nat := 0x2c

/-- The order-preserving transform the source applies to a number's
bit pattern: XOR the sign bit in for `fl >= 0`, complement all 64 bits
otherwise (`impl Encodable for TaggableValue`, Number arm). -/
def numberEncBits (bits : Nat) : Nat :=
  if f64ge0 bits then bits ^^^ 0x8000000000000000
  else bits ^^^ 0xffffffffffffffff

/-- `TaggableValue::encode` from src/encoding.rs: a tag byte followed by
the payload (numbers as the 8 transformed big-endian bytes, strings as
their raw UTF-8 bytes, null and booleans as the tag alone). -/
def encode : TaggableValue → Bytes
  | .Null => [jsonTagNull]
  | .Bool b => if b then [jsonTagTrue] else [jsonTagFalse]
  | .Number n => jsonTagNumber :: beBytes 8 (numberEncBits n)
  | .String s => jsonTagString :: s

/-- `impl Encodable for &Vec<TaggableValue>` from src/encoding.rs:
concatenate the component encodings separated by `PATH_SEP` (0x01),
with no trailing separator. -/
def encodePath : List TaggableValue → Bytes
  | [] => []
  | [c] => encode c
  | c :: rest => encode c ++ 0x01 :: encodePath rest

/-- `encode_document_key` from src/encoding.rs. -/
def encode_document_key (docid : Bytes) : Bytes :=
  1 :: 0 :: encode (.String docid)

/-- `encode_index_key` from src/encoding.rs: `KEY_INDEX`, 0x00, the
encoded path, 0x00, the encoded value, 0x00, the doc id encoded as a
tagged string. -/
def encode_index_key (docid : Bytes) (path : List TaggableValue)
    (v : TaggableValue) : Bytes :=
  2 :: 0 :: (encodePath path ++ 0 :: (encode v ++ 0 :: encode (.String docid)))

/-- `query_lower_bound` from src/encoding.rs. -/
def query_lower_bound (p : List TaggableValue) (v : Option TaggableValue) :
    Bytes :=
  2 :: 0 :: (encodePath p ++
    (match v with
     | some v => 0 :: encode v
     | none => []) ++ [0])

/-- `query_upper_bound` from src/encoding.rs: same as the lower bound
except the trailing byte is 0x02, which is greater than both
separators. -/
def query_upper_bound (p : List TaggableValue) (v : Option TaggableValue) :
    Bytes :=
  2 :: 0 :: (encodePath p ++
    (match v with
     | some v => 0 :: encode v
     | none => []) ++ [2])

/-- `encode_index_query_p_start_key` from src/encoding.rs. -/
def encode_index_query_p_start_key (path : List TaggableValue) : Bytes :=
  query_lower_bound path none

/-- `encode_index_query_pv_start_key` from src/encoding.rs. -/
def encode_index_query_pv_start_key (path : List TaggableValue)
    (v : TaggableValue) : Bytes :=
  query_lower_bound path (some v)

/-- `encode_index_query_p_end_key` from src/encoding.rs. -/
def encode_index_query_p_end_key (path : List TaggableValue) : Bytes :=
  query_upper_bound path none

/-- `encode_index_query_pv_end_key` from src/encoding.rs. -/
def encode_index_query_pv_end_key (path : List TaggableValue)
    (v : TaggableValue) : Bytes :=
  query_upper_bound path (some v)

/-- `DecodeError` from src/encoding.rs. -/
inductive DecodeError where
  | mk : DecodeError
deriving DecidableEq, Repr

/-- Rust `slice::split(|b| *b == 0x00)`: the (always non-empty) list of
segments between zero bytes, including empty leading, inner and
trailing segments. -/
def splitOnZero : Bytes → List Bytes
  | [] => [[]]
  | b :: rest =>
    if b = 0 then [] :: splitOnZero rest
    else
      match splitOnZero rest with
      | s :: ss => (b :: s) :: ss
      | [] => [[b]]

/-- `decode_tagged_str` from src/encoding.rs, at the byte level: strip
the leading tag byte, requiring it to be the String tag. (The model
works on the UTF-8 bytes directly, so the `str::from_utf8` step that
cannot fail for byte strings that came from Rust strings is the
identity here.) -/
def decode_tagged_str (tv : Bytes) : Except DecodeError Bytes :=
  match tv with
  | [] => .error .mk
  | tag :: tail => if tag = jsonTagString then .ok tail else .error .mk

/-- `decode_index_key_docid` from src/encoding.rs: split the key on
zero bytes and decode the final segment as a tagged string. -/
def decode_index_key_docid (k : Bytes) : Except DecodeError Bytes :=
  match (splitOnZero k).getLast? with
  | some v => decode_tagged_str v
  | none => .error .mk

/-! ### JSON documents and the path flattener (src/pathvalues.rs) -/

/-- `serde_json::Value`. Numbers carry the `f64` bit pattern the code
obtains via `as_f64`. Objects are the key/value sequence in map
iteration order (serde's map iterates keys in ascending order). -/
inductive JValue where
  | null : JValue
  | bool (b : Bool) : JValue
  | num (bits : Nat) : JValue
  | str (s : Bytes) : JValue
  | arr (items : List JValue) : JValue
  | obj (fields : List (Bytes × JValue)) : JValue

mutual
/-- Node count of a JSON value (each array/object and each scalar leaf
is one node). Used as iteration fuel for the flattening loop below. -/
def jSize : JValue → Nat
  | .arr items => 1 + jSizeL items
  | .obj fields => 1 + jSizeF fields
  | _ => 1

def jSizeL : List JValue → Nat
  | [] => 0
  | v :: rest => jSize v + jSizeL rest

def jSizeF : List (Bytes × JValue) → Nat
  | [] => 0
  | kv :: rest => jSize kv.2 + jSizeF rest
end

/-- Floor of the base-2 logarithm, with structural fuel (any fuel of at
least `log2 n` steps computes it; callers pass `n` itself). -/
def log2fuel : Nat → Nat → Nat
  | 0, _ => 0
  | fuel + 1, n => if 2 ≤ n then log2fuel fuel (n / 2) + 1 else 0

/-- Array indices enter paths as `i as f64` (src/pathvalues.rs). This
computes the binary64 bit pattern of a natural number; it is exact for
`n < 2^53`, which covers every reachable array index. -/
def natToF64bits (n : Nat) : Nat :=
  if n = 0 then 0
  else
    let e := log2fuel n n
    (1023 + e) * 2 ^ 52 +
      (if e ≤ 52 then (n - 2 ^ e) * 2 ^ (52 - e) else (n - 2 ^ e) / 2 ^ (e - 52))

/-- The loop of `get_path_values` (src/pathvalues.rs): pop the top of
the stack; arrays and objects push their children (so the last child is
processed first), scalars are appended to the accumulator. The Rust
`Vec` stack's top is the head of the model's list, so pushing the
children in iteration order is consing them in reverse. The `fuel`
argument makes the recursion structural; one unit is spent per popped
node, and the caller supplies the total node count of the stacked
values (`jSize`), so the fuel never runs out: expanding a container
spends its own node and leaves exactly its children's nodes on the
stack. -/
def gpvGo : Nat → List (List TaggableValue × JValue) →
    List (List TaggableValue × TaggableValue) →
    List (List TaggableValue × TaggableValue)
  | _, [], acc => acc
  | 0, _, acc => acc
  | fuel + 1, (path, v) :: rest, acc =>
    match v with
    | .arr items =>
      gpvGo fuel (((items.enum).map
        (fun iv => (path ++ [TaggableValue.Number (natToF64bits iv.1)], iv.2))).reverse
        ++ rest) acc
    | .obj fields =>
      gpvGo fuel ((fields.map
        (fun kv => (path ++ [TaggableValue.String kv.1], kv.2))).reverse
        ++ rest) acc
    | .str s => gpvGo fuel rest (acc ++ [(path, .String s)])
    | .num n => gpvGo fuel rest (acc ++ [(path, .Number n)])
    | .bool b => gpvGo fuel rest (acc ++ [(path, .Bool b)])
    | .null => gpvGo fuel rest (acc ++ [(path, .Null)])

/-- `get_path_values` from src/pathvalues.rs. -/
def get_path_values (v : JValue) :
    List (List TaggableValue × TaggableValue) :=
  gpvGo (jSize v) [([], v)] []

/-! ### The sled store model

sled's `Db` maps byte-string keys to byte-string values. The only
values this code ever stores are msgpack-serialized document bodies and
the zero-length index sentinel, so the model's value type carries the
body directly (rmp_serde round-trips JSON losslessly). The map is an
association list; `range(lo..hi)` filters the half-open interval.
Iteration order of the model's range is immaterial here because every
result list the claims mention is rebuilt through the executor's
ordered `BTreeMap`. -/

inductive DbValue where
  | body (v : JValue) : DbValue
  | sentinel : DbValue

abbrev Db := List (Bytes × DbValue)

def dbInsert (db : Db) (k : Bytes) (v : DbValue) : Db :=
  (k, v) :: db.filter (fun kv => decide (kv.1 ≠ k))

def dbGet (db : Db) (k : Bytes) : Option DbValue :=
  (db.find? (fun kv => decide (kv.1 = k))).map (·.2)

def dbRemove (db : Db) (k : Bytes) : Db :=
  db.filter (fun kv => decide (kv.1 ≠ k))

def dbRange (db : Db) (s e : Bytes) : List (Bytes × DbValue) :=
  db.filter (fun kv => bytesLe s kv.1 && bytesLt kv.1 e)

/-! ### Errors and document CRUD (src/docdb.rs) -/

/-- `DocDbError` from src/docdb.rs (payloads of the external error
types are dropped). The `InvalidQuery` variant is used by
src/query_planner.rs but its declaration is missing from the enum in
this snapshot of src/docdb.rs; it is modelled from the spec's error
taxonomy, which lists `InvalidQuery` for unsatisfiable conjunctions. -/
inductive DocDbError where
  | GenericError : DocDbError
  | DocDecode : DocDbError
  | DocEncode : DocDbError
  | Db : DocDbError
  | InvalidQuery : DocDbError
deriving DecidableEq, Repr

/-- `get_document` from src/docdb.rs. -/
def get_document (db : Db) (docid : Bytes) :
    Except DocDbError (Option JValue) :=
  match dbGet db (encode_document_key docid) with
  | none => .ok none
  | some (.body v) => .ok (some v)
  | some .sentinel => .error .DocDecode

/-- `insert_document` from src/docdb.rs: serialize and store the body
under the document key, then insert one zero-length index entry per
flattened (path, value) pair, all in one transaction. The source's
failure modes (rmp_serde encode failure, sled storage errors) are
external and cannot occur in the model. Note the source does NOT read
or remove index entries of any body previously stored at `docid`. -/
def insert_document (db : Db) (docid : Bytes) (v : JValue) :
    Except DocDbError Db :=
  let db1 := dbInsert db (encode_document_key docid) (.body v)
  .ok ((get_path_values v).foldl
    (fun d pv => dbInsert d (encode_index_key docid pv.1 pv.2) .sentinel) db1)

/-- `delete_document` from src/docdb.rs: read the prior body; absent
means success with no writes; otherwise remove every index entry
derived from the body, then the body itself, in one transaction. -/
def delete_document (db : Db) (docid : Bytes) : Except DocDbError Db :=
  match dbGet db (encode_document_key docid) with
  | none => .ok db
  | some .sentinel => .error .DocDecode
  | some (.body v) =>
    let db1 := (get_path_values v).foldl
      (fun d pv => dbRemove d (encode_index_key docid pv.1 pv.2)) db
    .ok (dbRemove db1 (encode_document_key docid))

/-- Convenience: a store built by setting a list of documents in order,
starting from an empty store. -/
def setDocs (docs : List (Bytes × JValue)) : Db :=
  docs.foldl (fun db x =>
    match insert_document db x.1 x.2 with
    | .ok db2 => db2
    | .error _ => db) []

/-! ### Queries (src/query.rs) -/

/-- `QP` from src/query.rs: a query predicate; a query is a list of
predicates ANDed together. -/
inductive QP where
  | E (p : List TaggableValue) (v : TaggableValue) : QP
  | GT (p : List TaggableValue) (v : TaggableValue) : QP
  | GTE (p : List TaggableValue) (v : TaggableValue) : QP
  | LT (p : List TaggableValue) (v : TaggableValue) : QP
  | LTE (p : List TaggableValue) (v : TaggableValue) : QP
deriving DecidableEq, Repr

/-- The pseudo-discriminant the `PartialOrd for QP` impl assigns to
each variant. -/
def QP.d : QP → Nat
  | .E _ _ => 1
  | .GT _ _ => 2
  | .GTE _ _ => 3
  | .LT _ _ => 4
  | .LTE _ _ => 5

/-- The path carried by a predicate. -/
def QP.p : QP → List TaggableValue
  | .E p _ => p
  | .GT p _ => p
  | .GTE p _ => p
  | .LT p _ => p
  | .LTE p _ => p

/-- The value carried by a predicate. -/
def QP.v : QP → TaggableValue
  | .E _ v => v
  | .GT _ v => v
  | .GTE _ v => v
  | .LT _ v => v
  | .LTE _ v => v

/-- `partial_cmp` on `TaggableValue` (the derived `PartialOrd`):
variants ordered by declaration, numbers by IEEE comparison (`None`
when a NaN is involved), strings byte-wise. The model's merged
`String` behaves as the source's `String` variant; predicates built
through `tv()` and `keypath!` only ever contain `String` and `Number`
components, for which the merge is transparent. -/
def tvPartialCmp (a b : TaggableValue) : Option Ordering :=
  match a, b with
  | .Null, .Null => some .eq
  | .Null, _ => some .lt
  | _, .Null => some .gt
  | .Bool x, .Bool y =>
    some (if x = y then .eq else if x = false then .lt else .gt)
  | .Bool _, _ => some .lt
  | _, .Bool _ => some .gt
  | .Number x, .Number y =>
    if isNaNbits x || isNaNbits y then none
    else some (if f64lt x y then .lt else if f64eq x y then .eq else .gt)
  | .Number _, _ => some .lt
  | _, .Number _ => some .gt
  | .String x, .String y =>
    some (if bytesLt x y then .lt else if x = y then .eq else .gt)

/-- `partial_cmp` on `Vec<TaggableValue>`: lexicographic, propagating
`None` from an incomparable element pair. -/
def listTvPartialCmp : List TaggableValue → List TaggableValue →
    Option Ordering
  | [], [] => some .eq
  | [], _ :: _ => some .lt
  | _ :: _, [] => some .gt
  | a :: as, b :: bs =>
    match tvPartialCmp a b with
    | some .eq => listTvPartialCmp as bs
    | some o => some o
    | none => none

/-- The `PartialOrd for QP` impl from src/query.rs: order by path, then
by value, then by the pseudo-discriminant. -/
def qpPartialCmp (a b : QP) : Option Ordering :=
  match listTvPartialCmp a.p b.p with
  | none => none
  | some .lt => some .lt
  | some .gt => some .gt
  | some .eq =>
    match tvPartialCmp a.v b.v with
    | none => none
    | some .lt => some .lt
    | some .gt => some .gt
    | some .eq => some (compare a.d b.d)

/-- The total comparator `query_sort` feeds to `sort_by`:
`partial_cmp(..).unwrap_or(Equal)`. -/
def qpCmp (a b : QP) : Ordering := (qpPartialCmp a b).getD .eq

/-- Stable insertion into a sorted list: a new element goes after every
element it does not strictly precede. -/
def sortInsert (x : QP) : List QP → List QP
  | [] => [x]
  | y :: ys => if qpCmp x y = .lt then x :: y :: ys else y :: sortInsert x ys

/-- `query_sort` from src/query.rs: Rust's stable `sort_by` with the
comparator above, modelled as stable insertion sort (any stable sort
computes the same list for a consistent comparator). -/
def query_sort (q : List QP) : List QP :=
  q.foldl (fun acc x => sortInsert x acc) []

/-- `Scan` from src/query.rs: a half-open index key range. -/
structure Scan where
  skey : Bytes
  ekey : Bytes
deriving DecidableEq, Repr

/-- `QueryStats` from src/query.rs; `scans` is a `u16` in the source,
so increments wrap modulo 2^16. -/
structure QueryStats where
  scans : Nat
deriving DecidableEq, Repr

/-- `QueryResult` from src/query.rs. -/
structure QueryResult where
  results : List Bytes
  stats : QueryStats
deriving DecidableEq, Repr

/-- `lookup_eq` from src/query.rs. -/
def lookup_eq (path : List TaggableValue) (v : TaggableValue) :
    Bytes × Bytes :=
  (encode_index_query_pv_start_key path v, encode_index_query_pv_end_key path v)

/-- `lookup_gte` from src/query.rs. -/
def lookup_gte (path : List TaggableValue) (v : TaggableValue) :
    Bytes × Bytes :=
  (encode_index_query_pv_start_key path v, encode_index_query_p_end_key path)

/-- `lookup_gt` from src/query.rs. -/
def lookup_gt (path : List TaggableValue) (v : TaggableValue) :
    Bytes × Bytes :=
  (encode_index_query_pv_end_key path v, encode_index_query_p_end_key path)

/-- `lookup_lt` from src/query.rs. -/
def lookup_lt (path : List TaggableValue) (v : TaggableValue) :
    Bytes × Bytes :=
  (encode_index_query_p_start_key path, encode_index_query_pv_start_key path v)

/-- `lookup_lte` from src/query.rs. -/
def lookup_lte (path : List TaggableValue) (v : TaggableValue) :
    Bytes × Bytes :=
  (encode_index_query_p_start_key path, encode_index_query_pv_end_key path v)

/-- `scan` from src/query.rs (the identical helper also appears in
src/query_executor.rs): iterate the half-open key range, decode each
key's doc id, and skip (with a log line) keys that fail to decode. The
sled iteration errors cannot occur in the model. -/
def scan (db : Db) (start_key end_key : Bytes) : List Bytes :=
  (dbRange db start_key end_key).filterMap
    (fun kv => (decode_index_key_docid kv.1).toOption)

/-- One step of `result_ids.entry(id).and_modify(|c| *c += 1)` followed
by `if first_predicate { e.or_insert(1) }`: increment the count of a
present id; insert an absent id with count 1 only on the first scan.
The map is the executor's `BTreeMap`, kept sorted by doc id. -/
def bumpId : List (Bytes × Nat) → Bytes → Bool → List (Bytes × Nat)
  | [], id, first => if first then [(id, 1)] else []
  | (k, c) :: rest, id, first =>
    if k = id then (k, c + 1) :: rest
    else if bytesLt id k then
      (if first then (id, 1) :: (k, c) :: rest else (k, c) :: rest)
    else (k, c) :: bumpId rest id first

/-- The scan loop shared, line for line, by `search_index`
(src/query.rs) and `query_execute` (src/query_executor.rs): run each
scan, counting it in `stats`; an empty scan short-circuits with no
results; otherwise fold the scanned ids into the count map; after the
loop, keep the ids seen in every scan. -/
def execLoop (db : Db) : List Scan → List (Bytes × Nat) → Nat → Nat →
    Bool → QueryResult
  | [], result_ids, n_preds, scansStat, _ =>
    ⟨(result_ids.filter (fun kv => decide (kv.2 = n_preds))).map (·.1),
      ⟨scansStat⟩⟩
  | s :: rest, result_ids, n_preds, scansStat, first =>
    let ids := scan db s.skey s.ekey
    let scansStat2 := (scansStat + 1) % 65536
    if ids.isEmpty then ⟨[], ⟨scansStat2⟩⟩
    else
      execLoop db rest (ids.foldl (fun m id => bumpId m id first) result_ids)
        (n_preds + 1) scansStat2 false

/-- `search_index` from src/query.rs: sort the predicates, derive one
scan per predicate via the `lookup_*` helpers, and run the scan loop. -/
def search_index (db : Db) (q : List QP) : Except DocDbError QueryResult :=
  let sorted := query_sort q
  let scans := sorted.map (fun qp =>
    let (skey, ekey) :=
      match qp with
      | .E p v => lookup_eq p v
      | .GT p v => lookup_gt p v
      | .GTE p v => lookup_gte p v
      | .LT p v => lookup_lt p v
      | .LTE p v => lookup_lte p v
    Scan.mk skey ekey)
  .ok (execLoop db scans [] 0 0 true)

/-! ### Query planner (src/query_planner.rs) -/

/-- `scan_range_eq` from src/query_planner.rs. -/
def scan_range_eq (path : List TaggableValue) (v : TaggableValue) :
    Bytes × Bytes :=
  (encode_index_query_pv_start_key path v, encode_index_query_pv_end_key path v)

/-- `scan_range_gte` from src/query_planner.rs. -/
def scan_range_gte (path : List TaggableValue) (v : TaggableValue) :
    Bytes × Bytes :=
  (encode_index_query_pv_start_key path v, encode_index_query_p_end_key path)

/-- `scan_range_gt` from src/query_planner.rs. -/
def scan_range_gt (path : List TaggableValue) (v : TaggableValue) :
    Bytes × Bytes :=
  (encode_index_query_pv_end_key path v, encode_index_query_p_end_key path)

/-- `scan_range_lt` from src/query_planner.rs. -/
def scan_range_lt (path : List TaggableValue) (v : TaggableValue) :
    Bytes × Bytes :=
  (encode_index_query_p_start_key path, encode_index_query_pv_start_key path v)

/-- `scan_range_lte` from src/query_planner.rs. -/
def scan_range_lte (path : List TaggableValue) (v : TaggableValue) :
    Bytes × Bytes :=
  (encode_index_query_p_start_key path, encode_index_query_pv_end_key path v)

/-- `groups.entry(x).or_insert(vec![]).push(scan)` on the planner's
`BTreeMap<Vec<u8>, Vec<Scan>>`, kept sorted by encoded path. -/
def groupsInsert : List (Bytes × List Scan) → Bytes → Scan →
    List (Bytes × List Scan)
  | [], k, s => [(k, [s])]
  | (k2, v) :: rest, k, s =>
    if k2 = k then (k2, v ++ [s]) :: rest
    else if bytesLt k k2 then (k, [s]) :: (k2, v) :: rest
    else (k2, v) :: groupsInsert rest k s

/-- The grouping pass of `query_plan`: one scan per predicate, grouped
by the encoded path bytes. -/
def query_plan_groups (q : List QP) : List (Bytes × List Scan) :=
  q.foldl (fun groups qp =>
    let (skey, ekey) :=
      match qp with
      | .E p v => scan_range_eq p v
      | .GT p v => scan_range_gt p v
      | .GTE p v => scan_range_gte p v
      | .LT p v => scan_range_lt p v
      | .LTE p v => scan_range_lte p v
    groupsInsert groups (encodePath qp.p) (Scan.mk skey ekey)) []

/-- Rust `Iterator::max` over byte strings (groups are never empty, so
seeding the fold with the lexicographically least byte string, the
empty one, is neutral). -/
def maxKey (l : List Bytes) : Bytes :=
  l.foldl (fun a x => if bytesLt a x then x else a) []

/-- Rust `Iterator::min` over byte strings (unreachable default for an
empty group). -/
def minKey : List Bytes → Bytes
  | [] => []
  | x :: xs => xs.foldl (fun a y => if bytesLt y a then y else a) x

/-- The collapse pass of `query_plan`: per group, one scan from the
maximum start key and minimum end key. -/
def query_plan_collapsed (q : List QP) : List Scan :=
  (query_plan_groups q).map (fun g =>
    Scan.mk (maxKey (g.2.map (·.skey))) (minKey (g.2.map (·.ekey))))

/-- `query_plan` from src/query_planner.rs: group predicates by path,
collapse each group to a single range, and reject the plan with
`InvalidQuery` when any collapsed range has `skey > ekey`. -/
def query_plan (q : List QP) : Except DocDbError (List Scan) :=
  match (query_plan_collapsed q).find? (fun s => bytesLt s.ekey s.skey) with
  | some _ => .error .InvalidQuery
  | none => .ok (query_plan_collapsed q)

/-! ### Query executor (src/query_executor.rs) -/

/-- `query_execute` from src/query_executor.rs: run the planner's scans
through the shared scan loop. -/
def query_execute (scans : List Scan) (db : Db) :
    Except DocDbError QueryResult :=
  .ok (execLoop db scans [] 0 0 true)

/-- Modelled from the spec: the search pipeline that feeds the
planner's scans to the executor (spec §4.5-§4.6). The snapshot's
`search_index` in src/query.rs predates the planner and does not call
it; the composition below is the three-line glue that is missing from
src/, exercised by the repository's tests through `set_document` /
`search_index` in their later form. -/
def search_with_planner (db : Db) (q : List QP) :
    Except DocDbError QueryResult :=
  match query_plan q with
  | .ok scans => query_execute scans db
  | .error e => .error e

/-! ### Well-formedness and predicate satisfaction -/

/-- A string payload is separator-free: it contains neither `COMPONENT_SEP`
(0x00) nor `PATH_SEP` (0x01). Spec §4.2 and OQ-1 assume stored strings
avoid the separator bytes. -/
def sepFree (s : Bytes) : Bool := s.all (fun b => decide (b ≠ 0 ∧ b ≠ 1))

/-- Well-formed path component: a separator-free string, or a number
whose bit pattern is a real (64-bit, non-NaN) float. Null and booleans
never occur in paths. -/
def wfComp : TaggableValue → Bool
  | .String s => sepFree s
  | .Number n => decide (n < 2 ^ 64) && !(isNaNbits n)
  | _ => false

/-- Well-formed scalar value: strings separator-free; numbers 64-bit,
non-NaN and not negative zero (bit pattern `2^63`). -/
def wfVal : TaggableValue → Bool
  | .String s => sepFree s
  | .Number n => decide (n < 2 ^ 64) && !(isNaNbits n) && decide (n ≠ 2 ^ 63)
  | _ => true

/-- A predicate is satisfied by a value under the engine's total order. -/
def satisfies (qp : QP) (v : TaggableValue) : Bool :=
  match qp with
  | .E _ vq => tvEq v vq
  | .GT _ vq => tvLt vq v
  | .GTE _ vq => tvLe vq v
  | .LT _ vq => tvLt v vq
  | .LTE _ vq => tvLe v vq

/-- The payload constraint the byte-level alignment analysis needs from
a scalar: a string payload is separator-free; numbers, null and
booleans need nothing beyond their fixed-shape encodings. Both
`wfComp` and `wfVal` imply it. -/
def wfEnc : TaggableValue → Bool
  | .String s => sepFree s
  | _ => true

/-- The predicate kinds whose scan is open-ended above within the path:
`lookup_gt` and `lookup_gte` end at `encode_index_query_p_end_key`,
which also covers keys of paths strictly extending the queried path. -/
def qpNeedsExt : QP → Bool
  | .GT _ _ => true
  | .GTE _ _ => true
  | _ => false

/-- The scan `search_index` derives for one predicate (the `match`
inside `search_index`, src/query.rs). -/
def qpScan : QP → Scan
  | .E p v => ⟨(lookup_eq p v).1, (lookup_eq p v).2⟩
  | .GT p v => ⟨(lookup_gt p v).1, (lookup_gt p v).2⟩
  | .GTE p v => ⟨(lookup_gte p v).1, (lookup_gte p v).2⟩
  | .LT p v => ⟨(lookup_lt p v).1, (lookup_lt p v).2⟩
  | .LTE p v => ⟨(lookup_lte p v).1, (lookup_lte p v).2⟩

/-- The count a doc id holds in the executor's count map (0 if absent). -/
def countMap (m : List (Bytes × Nat)) (id : Bytes) : Nat :=
  match m.find? (fun kv => decide (kv.1 = id)) with
  | some kv => kv.2
  | none => 0

/-! ## Theorems -/

theorem bytesLt_irrefl (a : Bytes) : bytesLt a a = false := by
  induction a with
  | nil => rfl
  | cons x xs ih => simp [bytesLt, ih]

theorem bytesLt_cons_lt {x y : Nat} (h : x < y) (xs ys : Bytes) :
    bytesLt (x :: xs) (y :: ys) = true := by
  simp [bytesLt, h]

theorem bytesLt_cons_gt {x y : Nat} (h : y < x) (xs ys : Bytes) :
    bytesLt (x :: xs) (y :: ys) = false := by
  simp [bytesLt, Nat.lt_asymm h, Nat.ne_of_gt h]

theorem bytesLt_cons_same (x : Nat) (xs ys : Bytes) :
    bytesLt (x :: xs) (x :: ys) = bytesLt xs ys := by
  simp [bytesLt]

theorem bytesLt_append_left (c a b : Bytes) :
    bytesLt (c ++ a) (c ++ b) = bytesLt a b := by
  induction c with
  | nil => rfl
  | cons x xs ih => simpa [bytesLt_cons_same] using ih

theorem bytesLt_self_append (a : Bytes) {t : Bytes} (h : t ≠ []) :
    bytesLt a (a ++ t) = true := by
  induction a with
  | nil =>
    cases t with
    | nil => exact absurd rfl h
    | cons x xs => rfl
  | cons x xs ih => simpa [bytesLt_cons_same] using ih

theorem bytesLt_of_ne_false (a b : Bytes)
    (hab : bytesLt a b = false) (hba : bytesLt b a = false) : a = b := by
  induction a generalizing b with
  | nil =>
    cases b with
    | nil => rfl
    | cons y ys => simp [bytesLt] at hab
  | cons x xs ih =>
    cases b with
    | nil => simp [bytesLt] at hba
    | cons y ys =>
      simp [bytesLt] at hab hba
      rcases Nat.lt_trichotomy x y with h | h | h
      · exact absurd hab.1 (by omega)
      · subst h
        have := ih ys (hab.2 rfl) (hba.2 rfl)
        simp [this]
      · exact absurd hba.1 (by omega)

theorem bytesLt_trans {a b c : Bytes}
    (hab : bytesLt a b = true) (hbc : bytesLt b c = true) :
    bytesLt a c = true := by
  induction a generalizing b c with
  | nil =>
    cases c with
    | nil =>
      cases b with
      | nil => exact hab
      | cons y ys => simp [bytesLt] at hbc
    | cons z zs => rfl
  | cons x xs ih =>
    cases b with
    | nil => simp [bytesLt] at hab
    | cons y ys =>
      cases c with
      | nil => simp [bytesLt] at hbc
      | cons z zs =>
        simp [bytesLt] at hab hbc ⊢
        rcases hab with h1 | ⟨rfl, h1⟩ <;> rcases hbc with h2 | ⟨rfl, h2⟩
        · exact Or.inl (Nat.lt_trans h1 h2)
        · exact Or.inl h1
        · exact Or.inl h2
        · exact Or.inr ⟨rfl, ih h1 h2⟩

theorem bytesLt_asymm {a b : Bytes} (h : bytesLt a b = true) :
    bytesLt b a = false := by
  rcases Bool.eq_false_or_eq_true (bytesLt b a) with h2 | h2
  · have := bytesLt_trans h h2
    rw [bytesLt_irrefl] at this
    exact absurd this (by simp)
  · exact h2

theorem bytesLe_of_lt {a b : Bytes} (h : bytesLt a b = true) :
    bytesLe a b = true := by
  simp [bytesLe, bytesLt_asymm h]

theorem bytesLe_iff_not_lt (a b : Bytes) :
    bytesLe a b = true ↔ bytesLt b a = false := by
  simp [bytesLe]

theorem bytesLe_trans {a b c : Bytes}
    (hab : bytesLe a b = true) (hbc : bytesLe b c = true) :
    bytesLe a c = true := by
  rw [bytesLe_iff_not_lt] at hab hbc ⊢
  rcases Bool.eq_false_or_eq_true (bytesLt c a) with hca | hca
  · rcases Bool.eq_false_or_eq_true (bytesLt b c) with h | h
    · simp [bytesLt_trans h hca] at hab
    · have := bytesLt_of_ne_false b c h hbc
      subst this
      simp [hca] at hab
  · exact hca

theorem bytesLt_of_le_of_lt {a b c : Bytes}
    (hab : bytesLe a b = true) (hbc : bytesLt b c = true) :
    bytesLt a c = true := by
  rw [bytesLe_iff_not_lt] at hab
  rcases Bool.eq_false_or_eq_true (bytesLt a b) with h | h
  · exact bytesLt_trans h hbc
  · have := bytesLt_of_ne_false a b h hab
    subst this
    exact hbc

theorem bytesLt_of_lt_of_le {a b c : Bytes}
    (hab : bytesLt a b = true) (hbc : bytesLe b c = true) :
    bytesLt a c = true := by
  rw [bytesLe_iff_not_lt] at hbc
  rcases Bool.eq_false_or_eq_true (bytesLt b c) with h | h
  · exact bytesLt_trans hab h
  · have := bytesLt_of_ne_false b c h hbc
    subst this
    exact hab

theorem bytesLe_refl (a : Bytes) : bytesLe a a = true := by
  simp [bytesLe, bytesLt_irrefl]

theorem bytesLe_self_append (a t : Bytes) : bytesLe a (a ++ t) = true := by
  cases t with
  | nil => simpa using bytesLe_refl a
  | cons x xs =>
    exact bytesLe_of_lt (bytesLt_self_append a (by simp))

/-! ## Claim theorems (first batch) -/

/-- C10: for every database state, `search_index` called with an empty
predicate list returns `Ok` with an empty result list and zero scans;
it does not return the ids of the stored documents. -/
theorem claim_C10_empty_query_returns_nothing :
    ∀ db : Db, search_index db [] = .ok ⟨[], ⟨0⟩⟩ :=
  fun _ => rfl

/-- C1: the encoding does not preserve the engine's numeric order at
negative zero. Under IEEE comparison `-1.0 < -0.0` (the engine's
order on numbers), yet `encode` sends `-0.0` (bit pattern `2^63`)
through the non-negative branch of the XOR transform, producing the
all-zero payload, which sorts below the encoding of `-1.0` (bit
pattern `0xBFF0000000000000`). So `encode(-1.0) < encode(-0.0)` fails
byte-wise while `-1.0 < -0.0` holds. -/
theorem claim_C1_negative_zero_breaks_order :
    tvLt (.Number 0xBFF0000000000000) (.Number 0x8000000000000000) = true ∧
    bytesLt (encode (.Number 0xBFF0000000000000))
      (encode (.Number 0x8000000000000000)) = false ∧
    bytesLt (encode (.Number 0x8000000000000000))
      (encode (.Number 0xBFF0000000000000)) = true := by
  refine ⟨by decide, by decide, by decide⟩

/-- C9 counterexample: encoding a NaN does not fail with `BadValue`;
`encode` is total, the error enum has no `BadValue` variant, and the
quiet-NaN pattern `0x7FF8000000000000` is encoded through the negative
XOR branch (NaN fails `fl >= 0`) into an ordinary Number-tagged key
payload. -/
theorem claim_C9_counterexample :
    encode (.Number 0x7FF8000000000000) =
      [0x2b, 0x80, 0x07, 0xff, 0xff, 0xff, 0xff, 0xff, 0xff] := by
  decide

/-- C9 amended: encoding a NaN number succeeds: since a NaN fails
`fl >= 0`, every NaN bit pattern is encoded as the Number tag followed
by the big-endian bytes of its complemented bit pattern, and no error
is reported. -/
theorem claim_C9_nan_encodes (n : Nat) (h : isNaNbits n = true) :
    encode (.Number n) = jsonTagNumber :: beBytes 8 (n ^^^ 0xffffffffffffffff) := by
  simp [encode, numberEncBits, f64ge0, h]

/-- C9 witness: the amended statement evaluated at the quiet-NaN
pattern. -/
theorem claim_C9_nan_encodes_witness :
    isNaNbits 0x7FF8000000000000 = true ∧
    encode (.Number 0x7FF8000000000000) =
      jsonTagNumber :: beBytes 8 (0x7FF8000000000000 ^^^ 0xffffffffffffffff) :=
  ⟨by decide, claim_C9_nan_encodes 0x7FF8000000000000 (by decide)⟩

/-- C3: `insert_document` does not erase index entries derived from a
previously stored body. After `set("d", {"a": 1.0}); set("d", {"a": 2.0})`
the index entry for `("a", 1.0, "d")` is still present, and a search
for `E(["a"], 1.0)` — a predicate satisfied only by the first body —
returns `"d"` in one scan. -/
theorem claim_C3_overwrite_leaves_stale_entry :
    (dbGet (setDocs [([100], .obj [([97], .num (natToF64bits 1))]),
                     ([100], .obj [([97], .num (natToF64bits 2))])])
        (encode_index_key [100] [.String [97]]
          (.Number (natToF64bits 1)))).isSome = true ∧
    search_index (setDocs [([100], .obj [([97], .num (natToF64bits 1))]),
                           ([100], .obj [([97], .num (natToF64bits 2))])])
        [.E [.String [97]] (.Number (natToF64bits 1))] =
      .ok ⟨[[100]], ⟨1⟩⟩ :=
  ⟨rfl, rfl⟩

/-- C5: `search_index` (src/query.rs) performs one scan per predicate,
not one per distinct path. On a store holding the single document
`"d1" = {"age": 40.0}`, the conjunction `E(["age"], 40.0) AND
LTE(["age"], 40.0)` — two predicates sharing one path — reports
`stats.scans = 2` through `search_index`, while the planner/executor
pipeline (`query_plan` + `query_execute`), which the repository's own
test `query_search_collapse_scans` describes, collapses the two
predicates into a single scan and reports `stats.scans = 1`. -/
theorem claim_C5_search_index_scans_per_predicate :
    search_index
        (setDocs [([100, 49], .obj [([97, 103, 101], .num (natToF64bits 40))])])
        [.E [.String [97, 103, 101]] (.Number (natToF64bits 40)),
         .LTE [.String [97, 103, 101]] (.Number (natToF64bits 40))] =
      .ok ⟨[[100, 49]], ⟨2⟩⟩ ∧
    search_with_planner
        (setDocs [([100, 49], .obj [([97, 103, 101], .num (natToF64bits 40))])])
        [.E [.String [97, 103, 101]] (.Number (natToF64bits 40)),
         .LTE [.String [97, 103, 101]] (.Number (natToF64bits 40))] =
      .ok ⟨[[100, 49]], ⟨1⟩⟩ :=
  ⟨rfl, rfl⟩


/-! ### Helper lemmas for the planner, executor, and key decoding -/

theorem splitOnZero_ne_nil (l : Bytes) : splitOnZero l ≠ [] := by
  cases l with
  | nil => simp [splitOnZero]
  | cons b rest =>
    by_cases hb : b = 0
    · simp [splitOnZero, hb]
    · simp only [splitOnZero, hb, if_false]
      cases hs : splitOnZero rest with
      | nil => simp
      | cons s ss => simp

theorem splitOnZero_append (xs ys : Bytes) :
    splitOnZero (xs ++ 0 :: ys) = splitOnZero xs ++ splitOnZero ys := by
  induction xs with
  | nil => simp [splitOnZero]
  | cons b rest ih =>
    by_cases hb : b = 0
    · simp [splitOnZero, hb, ih]
    · simp only [List.cons_append, splitOnZero, hb, if_false]
      rw [show rest.append (0 :: ys) = rest ++ 0 :: ys from rfl, ih]
      cases hs : splitOnZero rest with
      | nil => exact absurd hs (splitOnZero_ne_nil rest)
      | cons s ss => simp

theorem splitOnZero_nozero (l : Bytes) (h : ∀ b ∈ l, b ≠ 0) :
    splitOnZero l = [l] := by
  induction l with
  | nil => rfl
  | cons b rest ih =>
    have hb : b ≠ 0 := h b (by simp)
    simp only [splitOnZero, hb, if_false]
    rw [ih (fun x hx => h x (by simp [hx]))]

theorem execLoop_shortcircuit (db : Db) :
    ∀ (i : Nat) (scans : List Scan) (rid : List (Bytes × Nat))
      (np st : Nat) (first : Bool) (h : i < scans.length),
      (∀ j (hj : j < i),
        scan db (scans.get ⟨j, Nat.lt_trans hj h⟩).skey
          (scans.get ⟨j, Nat.lt_trans hj h⟩).ekey ≠ []) →
      scan db (scans.get ⟨i, h⟩).skey (scans.get ⟨i, h⟩).ekey = [] →
      st + i + 1 < 65536 →
      execLoop db scans rid np st first = ⟨[], ⟨st + i + 1⟩⟩ := by
  intro i
  induction i with
  | zero =>
    intro scans rid np st first h hne hempty hst
    cases scans with
    | nil => exact absurd h (by simp)
    | cons s rest =>
      have hs : scan db s.skey s.ekey = [] := hempty
      simp only [execLoop, hs, List.isEmpty_nil, if_true]
      have : (st + 1) % 65536 = st + 1 := Nat.mod_eq_of_lt (by omega)
      simp [this]
  | succ i ih =>
    intro scans rid np st first h hne hempty hst
    cases scans with
    | nil => exact absurd h (by simp)
    | cons s rest =>
      have h0 : scan db s.skey s.ekey ≠ [] := hne 0 (by omega)
      have hmod : (st + 1) % 65536 = st + 1 := Nat.mod_eq_of_lt (by omega)
      simp only [execLoop, List.isEmpty_eq_true, h0, if_false, hmod]
      have hlen : i < rest.length := by simpa using Nat.lt_of_succ_lt_succ h
      have := ih rest
        ((scan db s.skey s.ekey).foldl (fun m id => bumpId m id first) rid)
        (np + 1) (st + 1) false hlen
        (fun j hj => hne (j + 1) (by omega))
        hempty (by omega)
      rw [this]
      congr 2
      omega

/-! ## Claim theorems: C6, C7, C8 -/

/-- C6: whenever some per-path collapsed range has `skey > ekey`, the
planner returns `InvalidQuery` and the planned search pipeline errors
out before the executor issues any scan. -/
theorem claim_C6_unsatisfiable_conjunction (q : List QP)
    (h : ∃ s ∈ query_plan_collapsed q, bytesLt s.ekey s.skey = true) :
    query_plan q = .error .InvalidQuery ∧
    ∀ db : Db, search_with_planner db q = .error .InvalidQuery := by
  have hsome : ((query_plan_collapsed q).find?
      (fun s => bytesLt s.ekey s.skey)).isSome := by
    rw [List.find?_isSome]
    obtain ⟨s, hs, hp⟩ := h
    exact ⟨s, hs, hp⟩
  obtain ⟨s2, hfind⟩ := Option.isSome_iff_exists.mp hsome
  constructor
  · simp [query_plan, hfind]
  · intro db
    simp [search_with_planner, query_plan, hfind]

/-- C6 witness: `GT(["a"], 100.0) AND LTE(["a"], 50.0)` is rejected
with `InvalidQuery` and the planned pipeline performs no scan. -/
theorem claim_C6_unsatisfiable_conjunction_witness :
    query_plan [.GT [.String [97]] (.Number (natToF64bits 100)),
                .LTE [.String [97]] (.Number (natToF64bits 50))] =
      .error .InvalidQuery ∧
    search_with_planner []
        [.GT [.String [97]] (.Number (natToF64bits 100)),
         .LTE [.String [97]] (.Number (natToF64bits 50))] =
      .error .InvalidQuery :=
  ⟨(claim_C6_unsatisfiable_conjunction _ (by decide)).1,
   (claim_C6_unsatisfiable_conjunction _ (by decide)).2 []⟩

/-- C7: during `query_execute`, if the scan at (0-based) position `i`
yields no ids while every earlier scan yielded some, execution returns
an empty result list immediately with `stats.scans = i + 1` (the
1-based position), so no later scan runs. The bound keeps the `u16`
counter from wrapping. -/
theorem claim_C7_empty_scan_short_circuits
    (db : Db) (scans : List Scan) (i : Nat) (h : i < scans.length)
    (hne : ∀ j (hj : j < i),
      scan db (scans.get ⟨j, Nat.lt_trans hj h⟩).skey
        (scans.get ⟨j, Nat.lt_trans hj h⟩).ekey ≠ [])
    (hempty : scan db (scans.get ⟨i, h⟩).skey (scans.get ⟨i, h⟩).ekey = [])
    (hbound : i + 1 < 65536) :
    query_execute scans db = .ok ⟨[], ⟨i + 1⟩⟩ := by
  unfold query_execute
  rw [execLoop_shortcircuit db i scans [] 0 0 true h hne hempty (by omega)]
  norm_num

/-- C7 witness: a single empty scan on the empty store short-circuits
with one counted scan and no results. -/
theorem claim_C7_empty_scan_short_circuits_witness :
    query_execute [⟨[0], [1]⟩] [] = .ok ⟨[], ⟨1⟩⟩ :=
  claim_C7_empty_scan_short_circuits [] [⟨[0], [1]⟩] 0 (by decide)
    (fun j hj => absurd hj (by omega)) (by rfl) (by decide)

/-- C8: for a doc id free of zero bytes, the doc id decodes back out of
any index key built from it; and decoding any key whose final
zero-separated segment does not begin with the String tag fails with a
decode error. -/
theorem claim_C8_docid_decode :
    (∀ (docid : Bytes) (path : List TaggableValue) (v : TaggableValue),
      (∀ b ∈ docid, b ≠ 0) →
      decode_index_key_docid (encode_index_key docid path v) = .ok docid) ∧
    (∀ (k seg : Bytes), (splitOnZero k).getLast? = some seg →
      seg.head? ≠ some jsonTagString →
      decode_index_key_docid k = .error .mk) := by
  constructor
  · intro docid path v h0
    have hkey : encode_index_key docid path v =
        [2] ++ 0 :: (encodePath path ++ 0 ::
          (encode v ++ 0 :: (jsonTagString :: docid))) := by
      simp [encode_index_key, encode]
    have hS : splitOnZero (jsonTagString :: docid) = [jsonTagString :: docid] := by
      refine splitOnZero_nozero _ ?_
      intro b hb
      rcases List.mem_cons.mp hb with hb | hb
      · subst hb; simp [jsonTagString]
      · exact h0 b hb
    have hsplit : splitOnZero (encode_index_key docid path v) =
        splitOnZero [2] ++ (splitOnZero (encodePath path) ++
          (splitOnZero (encode v) ++ [jsonTagString :: docid])) := by
      rw [hkey, splitOnZero_append, splitOnZero_append, splitOnZero_append, hS]
    have hlast : (splitOnZero [2] ++ (splitOnZero (encodePath path) ++
        (splitOnZero (encode v) ++ [jsonTagString :: docid]))).getLast? =
        some (jsonTagString :: docid) := by
      simp [List.getLast?_append]
    unfold decode_index_key_docid
    rw [hsplit, hlast]
    simp [decode_tagged_str]
  · intro k seg hlast hhead
    unfold decode_index_key_docid
    rw [hlast]
    cases seg with
    | nil => rfl
    | cons t ts =>
      have ht : t ≠ jsonTagString := by
        intro h
        exact hhead (by simp [h])
      simp [decode_tagged_str, ht]

/-- C8 witness: round-trip at a concrete key, and a decode failure for
a key whose final segment starts with a non-String byte. -/
theorem claim_C8_docid_decode_witness :
    decode_index_key_docid
        (encode_index_key [102, 111, 111] [.String [97]] .Null) =
      .ok [102, 111, 111] ∧
    decode_index_key_docid [5, 0, 7] = .error .mk :=
  ⟨claim_C8_docid_decode.1 [102, 111, 111] [.String [97]] .Null (by decide),
   claim_C8_docid_decode.2 [5, 0, 7] [7] (by decide) (by decide)⟩

/-! ### Association-list store lemmas -/

theorem dbGet_insert_self (db : Db) (k : Bytes) (v : DbValue) :
    dbGet (dbInsert db k v) k = some v := by
  simp [dbGet, dbInsert, List.find?]

theorem dbGet_cons_eq (a : Bytes × DbValue) (rest : Db) (k2 : Bytes)
    (h : a.1 = k2) : dbGet (a :: rest) k2 = some a.2 := by
  simp [dbGet, List.find?, h]

theorem dbGet_cons_ne (a : Bytes × DbValue) (rest : Db) (k2 : Bytes)
    (h : a.1 ≠ k2) : dbGet (a :: rest) k2 = dbGet rest k2 := by
  simp [dbGet, List.find?, h]

theorem dbFilter_drop (a : Bytes × DbValue) (rest : Db) (k : Bytes)
    (h : a.1 = k) :
    (a :: rest).filter (fun kv => decide (kv.1 ≠ k)) =
      rest.filter (fun kv => decide (kv.1 ≠ k)) := by
  simp [List.filter_cons, h]

theorem dbFilter_keep (a : Bytes × DbValue) (rest : Db) (k : Bytes)
    (h : a.1 ≠ k) :
    (a :: rest).filter (fun kv => decide (kv.1 ≠ k)) =
      a :: rest.filter (fun kv => decide (kv.1 ≠ k)) := by
  simp [List.filter_cons, h]

theorem dbGet_filter_ne (db : Db) (k k2 : Bytes) (h : k2 ≠ k) :
    dbGet (db.filter (fun kv => decide (kv.1 ≠ k))) k2 = dbGet db k2 := by
  induction db with
  | nil => rfl
  | cons a rest ih =>
    by_cases ha : a.1 = k
    · have ha2 : a.1 ≠ k2 := by rw [ha]; exact fun e => h e.symm
      rw [dbFilter_drop a rest k ha, ih, dbGet_cons_ne a rest k2 ha2]
    · rw [dbFilter_keep a rest k ha]
      by_cases ha2 : a.1 = k2
      · rw [dbGet_cons_eq _ _ _ ha2, dbGet_cons_eq _ _ _ ha2]
      · rw [dbGet_cons_ne _ _ _ ha2, dbGet_cons_ne _ _ _ ha2, ih]

theorem dbGet_insert_ne (db : Db) (k k2 : Bytes) (v : DbValue) (h : k2 ≠ k) :
    dbGet (dbInsert db k v) k2 = dbGet db k2 := by
  have hk : ¬k = k2 := fun e => h e.symm
  simp only [dbInsert, dbGet, List.find?, hk, decide_eq_true_eq, if_false]
  have := dbGet_filter_ne db k k2 h
  simpa [dbGet] using this

theorem dbGet_remove_self (db : Db) (k : Bytes) :
    dbGet (dbRemove db k) k = none := by
  induction db with
  | nil => rfl
  | cons a rest ih =>
    by_cases ha : a.1 = k
    · simpa [dbRemove, ha] using ih
    · simp only [dbRemove] at ih ⊢
      rw [dbFilter_keep a rest k ha, dbGet_cons_ne a _ k ha]
      exact ih

theorem dbGet_remove_ne (db : Db) (k k2 : Bytes) (h : k2 ≠ k) :
    dbGet (dbRemove db k) k2 = dbGet db k2 :=
  dbGet_filter_ne db k k2 h

theorem mem_dbInsert {kv : Bytes × DbValue} (db : Db) (k : Bytes)
    (v : DbValue) (h : kv ∈ dbInsert db k v) : kv = (k, v) ∨ kv ∈ db := by
  rcases List.mem_cons.mp h with h | h
  · exact Or.inl h
  · exact Or.inr (List.mem_of_mem_filter h)

theorem mem_dbRemove {kv : Bytes × DbValue} (db : Db) (k : Bytes)
    (h : kv ∈ dbRemove db k) : kv ∈ db ∧ kv.1 ≠ k := by
  have := List.mem_filter.mp h
  exact ⟨this.1, by simpa using this.2⟩

theorem dbGet_isSome_of_mem {kv : Bytes × DbValue} :
    ∀ (db : Db), kv ∈ db → (dbGet db kv.1).isSome = true := by
  intro db
  induction db with
  | nil => intro h; simp at h
  | cons a rest ih =>
    intro h
    by_cases ha : a.1 = kv.1
    · simp [dbGet, List.find?, ha]
    · rcases List.mem_cons.mp h with h | h
      · exact absurd (congrArg Prod.fst h).symm ha
      · simpa [dbGet, List.find?, ha] using ih h

theorem dbGet_foldl_insert_ne {α : Type} (key : α → Bytes) (val : α → DbValue) :
    ∀ (l : List α) (db : Db) (k : Bytes), (∀ x ∈ l, key x ≠ k) →
      dbGet (l.foldl (fun d x => dbInsert d (key x) (val x)) db) k = dbGet db k := by
  intro l
  induction l with
  | nil => intro db k _; rfl
  | cons x xs ih =>
    intro db k h
    simp only [List.foldl_cons]
    rw [ih _ _ (fun y hy => h y (by simp [hy])),
      dbGet_insert_ne _ _ _ _ (Ne.symm (h x (by simp)))]

theorem dbGet_foldl_remove_none {α : Type} (key : α → Bytes) :
    ∀ (l : List α) (db : Db) (k : Bytes), dbGet db k = none →
      dbGet (l.foldl (fun d x => dbRemove d (key x)) db) k = none := by
  intro l
  induction l with
  | nil => intro db k h; exact h
  | cons x xs ih =>
    intro db k h
    simp only [List.foldl_cons]
    refine ih _ _ ?_
    by_cases hk : k = key x
    · rw [hk]; exact dbGet_remove_self db (key x)
    · rw [dbGet_remove_ne db (key x) k hk]; exact h

theorem dbGet_foldl_remove_mem {α : Type} (key : α → Bytes) :
    ∀ (l : List α) (db : Db) (x0 : α), x0 ∈ l →
      dbGet (l.foldl (fun d x => dbRemove d (key x)) db) (key x0) = none := by
  intro l
  induction l with
  | nil => intro db x0 h; simp at h
  | cons x xs ih =>
    intro db x0 h
    simp only [List.foldl_cons]
    rcases List.mem_cons.mp h with h | h
    · subst h
      refine dbGet_foldl_remove_none key xs _ _ (dbGet_remove_self db (key x0))
    · exact ih _ _ h

theorem mem_foldl_insert {α : Type} (key : α → Bytes) (val : α → DbValue) :
    ∀ (l : List α) (db : Db) (kv : Bytes × DbValue),
      kv ∈ l.foldl (fun d x => dbInsert d (key x) (val x)) db →
      (∃ x ∈ l, kv.1 = key x) ∨ kv ∈ db := by
  intro l
  induction l with
  | nil => intro db kv h; exact Or.inr h
  | cons x xs ih =>
    intro db kv h
    simp only [List.foldl_cons] at h
    rcases ih _ _ h with ⟨y, hy, hk⟩ | h
    · exact Or.inl ⟨y, by simp [hy], hk⟩
    · rcases mem_dbInsert _ _ _ h with h | h
      · exact Or.inl ⟨x, by simp, by rw [h]⟩
      · exact Or.inr h

theorem mem_foldl_remove {α : Type} (key : α → Bytes) :
    ∀ (l : List α) (db : Db) (kv : Bytes × DbValue),
      kv ∈ l.foldl (fun d x => dbRemove d (key x)) db → kv ∈ db := by
  intro l
  induction l with
  | nil => intro db kv h; exact h
  | cons x xs ih =>
    intro db kv h
    simp only [List.foldl_cons] at h
    exact (mem_dbRemove _ _ (ih _ _ h)).1

/-! ### Provenance of search results -/

theorem mem_scan {db : Db} {s e id : Bytes} (h : id ∈ scan db s e) :
    ∃ kv, kv ∈ db ∧ decode_index_key_docid kv.1 = .ok id := by
  unfold scan at h
  obtain ⟨kv, hkv, hdec⟩ := List.mem_filterMap.mp h
  refine ⟨kv, (List.mem_filter.mp hkv).1, ?_⟩
  cases hd : decode_index_key_docid kv.1 with
  | error e2 => rw [hd] at hdec; simp [Except.toOption] at hdec
  | ok a =>
    rw [hd] at hdec
    simp [Except.toOption] at hdec
    rw [hdec]

theorem bumpId_keys :
    ∀ (m : List (Bytes × Nat)) (id : Bytes) (first : Bool) (k : Bytes),
      k ∈ (bumpId m id first).map Prod.fst →
      k ∈ m.map Prod.fst ∨ k = id := by
  intro m
  induction m with
  | nil =>
    intro id first k h
    cases first <;> simp [bumpId] at h
    · exact Or.inr h
  | cons a rest ih =>
    intro id first k h
    by_cases ha : a.1 = id
    · simp only [bumpId, ha, if_true] at h
      simp at h ⊢
      tauto
    · by_cases hlt : bytesLt id a.1 = true
      · simp only [bumpId, ha, if_false, hlt, if_true] at h
        cases first <;> simp at h ⊢ <;> tauto
      · simp only [bumpId, ha, if_false, hlt] at h
        simp at h ⊢
        rcases h with h | h
        · tauto
        · rcases ih id first k (by simpa using h) with h | h
          · simp at h; tauto
          · tauto

theorem foldl_bumpId_keys :
    ∀ (ids : List Bytes) (m : List (Bytes × Nat)) (first : Bool) (k : Bytes),
      k ∈ ((ids.foldl (fun m id => bumpId m id first) m).map Prod.fst) →
      k ∈ m.map Prod.fst ∨ k ∈ ids := by
  intro ids
  induction ids with
  | nil => intro m first k h; exact Or.inl h
  | cons id rest ih =>
    intro m first k h
    simp only [List.foldl_cons] at h
    rcases ih _ _ _ h with h | h
    · rcases bumpId_keys _ _ _ _ h with h | h
      · exact Or.inl h
      · exact Or.inr (by simp [h])
    · exact Or.inr (by simp [h])

theorem execLoop_results_mem (db : Db) :
    ∀ (scans : List Scan) (rid : List (Bytes × Nat)) (np st : Nat)
      (first : Bool) (d : Bytes),
      d ∈ (execLoop db scans rid np st first).results →
      d ∈ rid.map Prod.fst ∨
        ∃ kv, kv ∈ db ∧ decode_index_key_docid kv.1 = .ok d := by
  intro scans
  induction scans with
  | nil =>
    intro rid np st first d h
    simp only [execLoop] at h
    obtain ⟨kv, hkv, hk⟩ := List.mem_map.mp h
    exact Or.inl (List.mem_map.mpr ⟨kv, List.mem_of_mem_filter hkv, hk⟩)
  | cons s rest ih =>
    intro rid np st first d h
    simp only [execLoop] at h
    by_cases he : (scan db s.skey s.ekey).isEmpty
    · rw [if_pos he] at h
      simp at h
    · rw [if_neg he] at h
      rcases ih _ _ _ _ _ h with h2 | h2
      · rcases foldl_bumpId_keys _ _ _ _ h2 with h3 | h3
        · exact Or.inl h3
        · exact Or.inr (mem_scan h3)
      · exact Or.inr h2

theorem search_index_results_mem {db : Db} {q : List QP} {res : QueryResult}
    {d : Bytes} (hs : search_index db q = .ok res) (hd : d ∈ res.results) :
    ∃ kv, kv ∈ db ∧ decode_index_key_docid kv.1 = .ok d := by
  unfold search_index at hs
  have hres := (Except.ok.injEq _ _).mp hs
  rw [← hres] at hd
  rcases execLoop_results_mem db _ _ _ _ _ _ hd with h | h
  · simp at h
  · exact h

/-! ## Claim theorem: C4 -/

/-- C4: deleting an absent document succeeds and leaves the store
untouched; and after storing a fresh document (into a store holding no
entry that decodes to its doc id — the state spec invariant I1
guarantees for a store with no document at that id), `delete_document`
removes the body and every derived index entry, so `get_document`
returns none and no search ever returns the doc id again. -/
theorem claim_C4_delete_document (db : Db) (docid : Bytes) (B : JValue) :
    (dbGet db (encode_document_key docid) = none →
      delete_document db docid = .ok db) ∧
    ((∀ kv ∈ db, decode_index_key_docid kv.1 ≠ .ok docid) →
      ∀ db1, insert_document db docid B = .ok db1 →
      ∃ db2, delete_document db1 docid = .ok db2 ∧
        get_document db2 docid = .ok none ∧
        (∀ pv ∈ get_path_values B,
          dbGet db2 (encode_index_key docid pv.1 pv.2) = none) ∧
        (∀ q res, search_index db2 q = .ok res → docid ∉ res.results)) := by
  constructor
  · intro h
    simp [delete_document, h]
  · intro hclean db1 hins
    have hdb1 : db1 = (get_path_values B).foldl
        (fun d pv => dbInsert d (encode_index_key docid pv.1 pv.2) .sentinel)
        (dbInsert db (encode_document_key docid) (.body B)) := by
      have := (Except.ok.injEq _ _).mp hins
      exact this.symm
    have hkey_ne : ∀ pv ∈ get_path_values B,
        encode_index_key docid pv.1 pv.2 ≠ encode_document_key docid := by
      intro pv _ h
      simp [encode_index_key, encode_document_key] at h
    have hget1 : dbGet db1 (encode_document_key docid) = some (.body B) := by
      rw [hdb1, dbGet_foldl_insert_ne _ _ _ _ _ hkey_ne, dbGet_insert_self]
    refine ⟨dbRemove ((get_path_values B).foldl
      (fun d pv => dbRemove d (encode_index_key docid pv.1 pv.2)) db1)
      (encode_document_key docid), ?_, ?_, ?_, ?_⟩
    · simp only [delete_document, hget1]
    · simp [get_document, dbGet_remove_self]
    · intro pv hpv
      have hne := hkey_ne pv hpv
      rw [dbGet_remove_ne _ _ _ hne]
      exact dbGet_foldl_remove_mem _ _ _ _ hpv
    · intro q res hs hd
      obtain ⟨kv, hkv, hdec⟩ := search_index_results_mem hs hd
      have hkv2 := mem_dbRemove _ _ hkv
      have hkv3 := mem_foldl_remove _ _ _ _ hkv2.1
      rw [hdb1] at hkv3
      rcases mem_foldl_insert _ _ _ _ _ hkv3 with ⟨x, _, hx⟩ | hkv4
      · -- an index entry for docid: it was removed before the body
        have : dbGet ((get_path_values B).foldl
            (fun d pv => dbRemove d (encode_index_key docid pv.1 pv.2)) db1)
            kv.1 = none := by
          rw [hx]
          exact dbGet_foldl_remove_mem _ _ _ _ (by assumption)
        have hsome := dbGet_isSome_of_mem _ hkv2.1
        rw [this] at hsome
        simp at hsome
      · rcases mem_dbInsert _ _ _ hkv4 with h | h
        · exact hkv2.2 (congrArg Prod.fst h)
        · exact hclean kv h hdec

/-- C4 witness: on the empty store, deleting an absent id succeeds
unchanged, and a set-then-delete of `"d" = {"a": 1.0}` erases the body
and its index entry and keeps the id out of every search. -/
theorem claim_C4_delete_document_witness :
    delete_document ([] : Db) [100] = .ok ([] : Db) ∧
    (∃ db2, delete_document
        [([2, 0, 44, 97, 0, 43, 191, 240, 0, 0, 0, 0, 0, 0, 0, 44, 100],
          DbValue.sentinel),
         ([1, 0, 44, 100],
          DbValue.body (JValue.obj [([97], JValue.num (natToF64bits 1))]))]
        [100] = .ok db2 ∧
      get_document db2 [100] = .ok none ∧
      (∀ pv ∈ get_path_values (JValue.obj [([97], JValue.num (natToF64bits 1))]),
        dbGet db2 (encode_index_key [100] pv.1 pv.2) = none) ∧
      (∀ q res, search_index db2 q = .ok res → [100] ∉ res.results)) :=
  ⟨(claim_C4_delete_document [] [100]
      (JValue.obj [([97], JValue.num (natToF64bits 1))])).1 rfl,
   (claim_C4_delete_document [] [100]
      (JValue.obj [([97], JValue.num (natToF64bits 1))])).2
      (by simp) _ rfl⟩


theorem beBytes_lt :
    ∀ (n x y : Nat), x < 256 ^ n → y < 256 ^ n →
      bytesLt (beBytes n x) (beBytes n y) = decide (x < y) := by
  intro n
  induction n with
  | zero =>
    intro x y hx hy
    have hx0 : x = 0 := by simpa using hx
    have hy0 : y = 0 := by simpa using hy
    subst hx0; subst hy0
    rfl
  | succ n ih =>
    intro x y hx hy
    have hpow : (0 : Nat) < 256 ^ n := by positivity
    have hps : (256 : Nat) ^ (n + 1) = 256 * 256 ^ n := by ring
    have hqx : x / 256 ^ n < 256 := by
      rw [Nat.div_lt_iff_lt_mul hpow]
      rw [hps] at hx
      exact hx
    have hqy : y / 256 ^ n < 256 := by
      rw [Nat.div_lt_iff_lt_mul hpow]
      rw [hps] at hy
      exact hy
    have hdx := Nat.div_add_mod x (256 ^ n)
    have hdy := Nat.div_add_mod y (256 ^ n)
    have hmx : x % 256 ^ n < 256 ^ n := Nat.mod_lt _ hpow
    have hmy : y % 256 ^ n < 256 ^ n := Nat.mod_lt _ hpow
    simp only [beBytes, Nat.mod_eq_of_lt hqx, Nat.mod_eq_of_lt hqy, bytesLt]
    rcases Nat.lt_trichotomy (x / 256 ^ n) (y / 256 ^ n) with hq | hq | hq
    · have hxy : x < y := by
        calc x < 256 ^ n * (x / 256 ^ n + 1) := Nat.lt_mul_div_succ x hpow
          _ ≤ 256 ^ n * (y / 256 ^ n) := Nat.mul_le_mul_left _ (Nat.succ_le_of_lt hq)
          _ = (y / 256 ^ n) * 256 ^ n := Nat.mul_comm _ _
          _ ≤ y := Nat.div_mul_le_self y _
      simp [hq, hxy, Nat.ne_of_lt hq]
    · rw [hq]
      have heq : (x % 256 ^ n < y % 256 ^ n) ↔ (x < y) := by
        have hc : 256 ^ n * (x / 256 ^ n) = 256 ^ n * (y / 256 ^ n) := by rw [hq]
        omega
      simp only [ih _ _ hmx hmy, Nat.lt_irrefl, decide_False, Bool.false_or,
        beq_self_eq_true, Bool.true_and]
      rw [decide_eq_decide]
      exact heq
    · have hyx : y < x := by
        calc y < 256 ^ n * (y / 256 ^ n + 1) := Nat.lt_mul_div_succ y hpow
          _ ≤ 256 ^ n * (x / 256 ^ n) := Nat.mul_le_mul_left _ (Nat.succ_le_of_lt hq)
          _ = (x / 256 ^ n) * 256 ^ n := Nat.mul_comm _ _
          _ ≤ x := Nat.div_mul_le_self x _
      simp [Nat.lt_asymm hq, Nat.lt_asymm hyx, Nat.ne_of_gt hq]

theorem beBytes_inj {n x y : Nat} (hx : x < 256 ^ n) (hy : y < 256 ^ n)
    (h : beBytes n x = beBytes n y) : x = y := by
  rcases Nat.lt_trichotomy x y with hlt | hlt | hlt
  · have := beBytes_lt n x y hx hy
    rw [h, bytesLt_irrefl] at this
    simp [hlt] at this
  · exact hlt
  · have := beBytes_lt n y x hy hx
    rw [← h, bytesLt_irrefl] at this
    simp [hlt] at this

theorem xor_two_pow {n a : Nat} (h : a < 2 ^ n) : a ^^^ 2 ^ n = a + 2 ^ n := by
  apply Nat.eq_of_testBit_eq
  intro i
  have hbits : a.testBit i = false ∨ i < n := by
    by_cases hi : i < n
    · exact Or.inr hi
    · refine Or.inl (Nat.testBit_lt_two_pow ?_)
      exact Nat.lt_of_lt_of_le h (Nat.pow_le_pow_right (by norm_num) (le_of_not_lt hi))
  rw [Nat.testBit_xor, Nat.testBit_two_pow,
    show a + 2 ^ n = 2 ^ n * 1 + a by omega,
    Nat.testBit_mul_pow_two_add 1 h i]
  rcases Nat.lt_trichotomy i n with hi | hi | hi
  · simp [hi, Nat.ne_of_gt hi]
  · subst hi
    have : a.testBit i = false := Nat.testBit_lt_two_pow h
    simp [this]
  · have h1 : a.testBit i = false := by
      rcases hbits with hb | hb
      · exact hb
      · omega
    have h2 : Nat.testBit 1 (i - n) = false := by
      have : 0 < i - n := by omega
      rcases Nat.exists_eq_add_of_lt this with ⟨k, hk⟩
      rw [show i - n = k + 1 by omega]
      simp [Nat.testBit_succ]
    simp [Nat.ne_of_lt hi, Nat.lt_asymm hi, h1, h2]

theorem xor_two_pow_sub_one {n a : Nat} (h : a < 2 ^ n) :
    a ^^^ (2 ^ n - 1) = 2 ^ n - 1 - a := by
  apply Nat.eq_of_testBit_eq
  intro i
  rw [Nat.testBit_xor, Nat.testBit_two_pow_sub_one,
    show 2 ^ n - 1 - a = 2 ^ n - (a + 1) by omega,
    Nat.testBit_two_pow_sub_succ h]
  by_cases hi : i < n
  · simp [hi]
  · have h1 : a.testBit i = false := by
      refine Nat.testBit_lt_two_pow ?_
      exact Nat.lt_of_lt_of_le h (Nat.pow_le_pow_right (by norm_num) (le_of_not_lt hi))
    simp [hi, h1]

theorem numberEncBits_lt_two_pow {a : Nat} (h : a < 2 ^ 64) :
    numberEncBits a < 2 ^ 64 := by
  unfold numberEncBits
  split
  · exact Nat.xor_lt_two_pow h (by norm_num)
  · exact Nat.xor_lt_two_pow h (by norm_num)

theorem numberEncBits_lt_iff {a b : Nat}
    (ha64 : a < 2 ^ 64) (hb64 : b < 2 ^ 64)
    (haN : isNaNbits a = false) (hbN : isNaNbits b = false)
    (haZ : a ≠ 2 ^ 63) (hbZ : b ≠ 2 ^ 63) :
    f64lt a b = decide (numberEncBits a < numberEncBits b) := by
  have hm63 : (0x8000000000000000 : Nat) = 2 ^ 63 := by norm_num
  have hm64 : (0xffffffffffffffff : Nat) = 2 ^ 64 - 1 := by norm_num
  rcases Nat.lt_or_ge a (2 ^ 63) with hA | hA <;>
    rcases Nat.lt_or_ge b (2 ^ 63) with hB | hB
  · have hga : f64ge0 a = true := by simp [f64ge0, haN]; omega
    have hgb : f64ge0 b = true := by simp [f64ge0, hbN]; omega
    have hea : numberEncBits a = a + 2 ^ 63 := by
      rw [numberEncBits, if_pos hga, hm63, xor_two_pow hA]
    have heb : numberEncBits b = b + 2 ^ 63 := by
      rw [numberEncBits, if_pos hgb, hm63, xor_two_pow hB]
    have hda : a / 2 ^ 63 = 0 := by omega
    have hdb : b / 2 ^ 63 = 0 := by omega
    simp only [f64lt, haN, hbN, Bool.or_self, Bool.false_eq_true, if_false,
      hda, hdb, hea, heb]
    rw [Bool.eq_iff_iff]
    norm_num
    omega
  · have hga : f64ge0 a = true := by simp [f64ge0, haN]; omega
    have hgb : f64ge0 b = false := by simp [f64ge0, hbN]; omega
    have hea : numberEncBits a = a + 2 ^ 63 := by
      rw [numberEncBits, if_pos hga, hm63, xor_two_pow hA]
    have heb : numberEncBits b = 2 ^ 64 - 1 - b := by
      rw [numberEncBits, if_neg (by simp [hgb]), hm64, xor_two_pow_sub_one hb64]
    have hda : a / 2 ^ 63 = 0 := by omega
    have hdb : b / 2 ^ 63 = 1 := by omega
    simp only [f64lt, haN, hbN, Bool.or_self, Bool.false_eq_true, if_false,
      hda, hdb, hea, heb]
    rw [Bool.eq_iff_iff]
    norm_num
    omega
  · have hga : f64ge0 a = false := by simp [f64ge0, haN]; omega
    have hgb : f64ge0 b = true := by simp [f64ge0, hbN]; omega
    have hea : numberEncBits a = 2 ^ 64 - 1 - a := by
      rw [numberEncBits, if_neg (by simp [hga]), hm64, xor_two_pow_sub_one ha64]
    have heb : numberEncBits b = b + 2 ^ 63 := by
      rw [numberEncBits, if_pos hgb, hm63, xor_two_pow hB]
    have hda : a / 2 ^ 63 = 1 := by omega
    have hdb : b / 2 ^ 63 = 0 := by omega
    simp only [f64lt, haN, hbN, Bool.or_self, Bool.false_eq_true, if_false,
      hda, hdb, hea, heb]
    rw [Bool.eq_iff_iff]
    norm_num
    omega
  · have hga : f64ge0 a = false := by simp [f64ge0, haN]; omega
    have hgb : f64ge0 b = false := by simp [f64ge0, hbN]; omega
    have hea : numberEncBits a = 2 ^ 64 - 1 - a := by
      rw [numberEncBits, if_neg (by simp [hga]), hm64, xor_two_pow_sub_one ha64]
    have heb : numberEncBits b = 2 ^ 64 - 1 - b := by
      rw [numberEncBits, if_neg (by simp [hgb]), hm64, xor_two_pow_sub_one hb64]
    have hda : a / 2 ^ 63 = 1 := by omega
    have hdb : b / 2 ^ 63 = 1 := by omega
    simp only [f64lt, haN, hbN, Bool.or_self, Bool.false_eq_true, if_false,
      hda, hdb, hea, heb]
    rw [Bool.eq_iff_iff]
    norm_num
    omega

theorem numberEncBits_inj {a b : Nat}
    (ha64 : a < 2 ^ 64) (hb64 : b < 2 ^ 64)
    (haN : isNaNbits a = false) (hbN : isNaNbits b = false)
    (h : numberEncBits a = numberEncBits b) : a = b := by
  have hm63 : (0x8000000000000000 : Nat) = 2 ^ 63 := by norm_num
  have hm64 : (0xffffffffffffffff : Nat) = 2 ^ 64 - 1 := by norm_num
  have hinf : infBits = 0x7FF0000000000000 := rfl
  have haN2 : a % 2 ^ 63 ≤ 0x7FF0000000000000 := by
    simp [isNaNbits, hinf] at haN
    omega
  have hbN2 : b % 2 ^ 63 ≤ 0x7FF0000000000000 := by
    simp [isNaNbits, hinf] at hbN
    omega
  by_cases hga : f64ge0 a = true <;> by_cases hgb : f64ge0 b = true
  · have h1 : a < 2 ^ 63 ∨ a = 2 ^ 63 := by simp [f64ge0, haN] at hga; omega
    have h2 : b < 2 ^ 63 ∨ b = 2 ^ 63 := by simp [f64ge0, hbN] at hgb; omega
    rw [numberEncBits, if_pos hga, numberEncBits, if_pos hgb, hm63] at h
    rcases h1 with h1 | h1 <;> rcases h2 with h2 | h2
    · rw [xor_two_pow h1, xor_two_pow h2] at h; omega
    · subst h2
      rw [xor_two_pow h1, Nat.xor_self] at h
      omega
    · subst h1
      rw [Nat.xor_self, xor_two_pow h2] at h
      omega
    · omega
  · -- a in the non-negative branch, b negative: images are disjoint
    have h1 : a < 2 ^ 63 ∨ a = 2 ^ 63 := by simp [f64ge0, haN] at hga; omega
    have h2 : 2 ^ 63 < b := by simp [f64ge0, hbN] at hgb; omega
    rw [numberEncBits, if_pos hga, numberEncBits, if_neg hgb, hm63, hm64,
      xor_two_pow_sub_one hb64] at h
    have hbm : b % 2 ^ 63 = b - 2 ^ 63 := by omega
    rcases h1 with h1 | h1
    · rw [xor_two_pow h1] at h
      omega
    · subst h1
      rw [Nat.xor_self] at h
      -- 0 = 2^64 - 1 - b forces b = 2^64 - 1, whose magnitude is NaN
      omega
  · have h1 : b < 2 ^ 63 ∨ b = 2 ^ 63 := by simp [f64ge0, hbN] at hgb; omega
    have h2 : 2 ^ 63 < a := by simp [f64ge0, haN] at hga; omega
    rw [numberEncBits, if_neg hga, numberEncBits, if_pos hgb, hm63, hm64,
      xor_two_pow_sub_one ha64] at h
    have ham : a % 2 ^ 63 = a - 2 ^ 63 := by omega
    rcases h1 with h1 | h1
    · rw [xor_two_pow h1] at h
      omega
    · subst h1
      rw [Nat.xor_self] at h
      omega
  · rw [numberEncBits, if_neg hga, numberEncBits, if_neg hgb, hm64,
      xor_two_pow_sub_one ha64, xor_two_pow_sub_one hb64] at h
    omega

theorem f64eq_eq_decide {a b : Nat}
    (ha64 : a < 2 ^ 64) (hb64 : b < 2 ^ 64)
    (haN : isNaNbits a = false) (hbN : isNaNbits b = false)
    (haZ : a ≠ 2 ^ 63) (hbZ : b ≠ 2 ^ 63) :
    f64eq a b = decide (a = b) := by
  simp only [f64eq, haN, hbN, Bool.not_false, Bool.true_and]
  by_cases hab : a = b
  · subst hab
    simp
  · have h2 : ¬(a % 2 ^ 63 = 0 ∧ b % 2 ^ 63 = 0) := by
      rintro ⟨h3, h4⟩
      exact hab (by omega)
    have h1 : (a == b) = false := by simp [hab]
    by_cases ha0 : a % 2 ^ 63 = 0 <;> by_cases hb0 : b % 2 ^ 63 = 0
    · exact absurd ⟨ha0, hb0⟩ h2
    all_goals (simp [h1, ha0, hb0, hab]; omega)


theorem wfVal_number {n : Nat} (h : wfVal (.Number n) = true) :
    n < 2 ^ 64 ∧ isNaNbits n = false ∧ n ≠ 2 ^ 63 := by
  simp only [wfVal, Bool.and_eq_true, decide_eq_true_eq, Bool.not_eq_true'] at h
  exact ⟨h.1.1, h.1.2, h.2⟩

theorem encode_lt_iff :
    ∀ (a b : TaggableValue), wfVal a = true → wfVal b = true →
      bytesLt (encode a) (encode b) = tvLt a b := by
  intro a b ha hb
  cases a with
  | Null =>
    cases b with
    | Null => rfl
    | Bool b2 => cases b2 <;> rfl
    | Number n =>
      simp only [encode, tvLt, jsonTagNull, jsonTagFalse, jsonTagTrue, jsonTagNumber, jsonTagString]
      exact bytesLt_cons_lt (by norm_num [jsonTagNull, jsonTagFalse, jsonTagTrue, jsonTagNumber, jsonTagString]) _ _
    | String s =>
      simp only [encode, tvLt, jsonTagNull, jsonTagFalse, jsonTagTrue, jsonTagNumber, jsonTagString]
      exact bytesLt_cons_lt (by norm_num [jsonTagNull, jsonTagFalse, jsonTagTrue, jsonTagNumber, jsonTagString]) _ _
  | Bool b1 =>
    cases b with
    | Null => cases b1 <;> rfl
    | Bool b2 => cases b1 <;> cases b2 <;> rfl
    | Number n =>
      cases b1 <;>
        (simp only [encode, tvLt, jsonTagNull, jsonTagFalse, jsonTagTrue, jsonTagNumber, jsonTagString]
         exact bytesLt_cons_lt (by norm_num [jsonTagNull, jsonTagFalse, jsonTagTrue, jsonTagNumber, jsonTagString]) _ _)
    | String s =>
      cases b1 <;>
        (simp only [encode, tvLt, jsonTagNull, jsonTagFalse, jsonTagTrue, jsonTagNumber, jsonTagString]
         exact bytesLt_cons_lt (by norm_num [jsonTagNull, jsonTagFalse, jsonTagTrue, jsonTagNumber, jsonTagString]) _ _)
  | Number n1 =>
    cases b with
    | Null =>
      simp only [encode, tvLt, jsonTagNull, jsonTagFalse, jsonTagTrue, jsonTagNumber, jsonTagString]
      exact bytesLt_cons_gt (by norm_num [jsonTagNull, jsonTagFalse, jsonTagTrue, jsonTagNumber, jsonTagString]) _ _
    | Bool b2 =>
      cases b2 <;>
        (simp only [encode, tvLt, jsonTagNull, jsonTagFalse, jsonTagTrue, jsonTagNumber, jsonTagString]
         exact bytesLt_cons_gt (by norm_num [jsonTagNull, jsonTagFalse, jsonTagTrue, jsonTagNumber, jsonTagString]) _ _)
    | Number n2 =>
      obtain ⟨h1a, h2a, h3a⟩ := wfVal_number ha
      obtain ⟨h1b, h2b, h3b⟩ := wfVal_number hb
      have h256 : (256 : Nat) ^ 8 = 2 ^ 64 := by norm_num
      simp only [encode, tvLt, bytesLt_cons_same]
      rw [beBytes_lt 8 _ _ (by rw [h256]; exact numberEncBits_lt_two_pow h1a)
        (by rw [h256]; exact numberEncBits_lt_two_pow h1b)]
      exact (numberEncBits_lt_iff h1a h1b h2a h2b h3a h3b).symm
    | String s =>
      simp only [encode, tvLt, jsonTagNull, jsonTagFalse, jsonTagTrue, jsonTagNumber, jsonTagString]
      exact bytesLt_cons_lt (by norm_num [jsonTagNull, jsonTagFalse, jsonTagTrue, jsonTagNumber, jsonTagString]) _ _
  | String s1 =>
    cases b with
    | Null =>
      simp only [encode, tvLt, jsonTagNull, jsonTagFalse, jsonTagTrue, jsonTagNumber, jsonTagString]
      exact bytesLt_cons_gt (by norm_num [jsonTagNull, jsonTagFalse, jsonTagTrue, jsonTagNumber, jsonTagString]) _ _
    | Bool b2 =>
      cases b2 <;>
        (simp only [encode, tvLt, jsonTagNull, jsonTagFalse, jsonTagTrue, jsonTagNumber, jsonTagString]
         exact bytesLt_cons_gt (by norm_num [jsonTagNull, jsonTagFalse, jsonTagTrue, jsonTagNumber, jsonTagString]) _ _)
    | Number n2 =>
      simp only [encode, tvLt, jsonTagNull, jsonTagFalse, jsonTagTrue, jsonTagNumber, jsonTagString]
      exact bytesLt_cons_gt (by norm_num [jsonTagNull, jsonTagFalse, jsonTagTrue, jsonTagNumber, jsonTagString]) _ _
    | String s2 =>
      simp only [encode, tvLt, jsonTagNull, jsonTagFalse, jsonTagTrue, jsonTagNumber, jsonTagString]
      exact bytesLt_cons_same _ _ _

theorem encode_eq_iff :
    ∀ (a b : TaggableValue), wfVal a = true → wfVal b = true →
      ((encode a = encode b) ↔ tvEq a b = true) := by
  intro a b ha hb
  cases a with
  | Null =>
    cases b with
    | Null => simp [encode, tvEq, jsonTagNull, jsonTagFalse, jsonTagTrue, jsonTagNumber, jsonTagString]
    | Bool b2 => cases b2 <;> simp [encode, tvEq, jsonTagNull, jsonTagFalse, jsonTagTrue, jsonTagNumber, jsonTagString]
    | Number n => simp [encode, tvEq, jsonTagNull, jsonTagFalse, jsonTagTrue, jsonTagNumber, jsonTagString]
    | String s => simp [encode, tvEq, jsonTagNull, jsonTagFalse, jsonTagTrue, jsonTagNumber, jsonTagString]
  | Bool b1 =>
    cases b with
    | Null => cases b1 <;> simp [encode, tvEq, jsonTagNull, jsonTagFalse, jsonTagTrue, jsonTagNumber, jsonTagString]
    | Bool b2 => cases b1 <;> cases b2 <;> simp [encode, tvEq, jsonTagNull, jsonTagFalse, jsonTagTrue, jsonTagNumber, jsonTagString]
    | Number n => cases b1 <;> simp [encode, tvEq, jsonTagNull, jsonTagFalse, jsonTagTrue, jsonTagNumber, jsonTagString]
    | String s => cases b1 <;> simp [encode, tvEq, jsonTagNull, jsonTagFalse, jsonTagTrue, jsonTagNumber, jsonTagString]
  | Number n1 =>
    cases b with
    | Null => simp [encode, tvEq, jsonTagNull, jsonTagFalse, jsonTagTrue, jsonTagNumber, jsonTagString]
    | Bool b2 => cases b2 <;> simp [encode, tvEq, jsonTagNull, jsonTagFalse, jsonTagTrue, jsonTagNumber, jsonTagString]
    | Number n2 =>
      obtain ⟨h1a, h2a, h3a⟩ := wfVal_number ha
      obtain ⟨h1b, h2b, h3b⟩ := wfVal_number hb
      have h256 : (256 : Nat) ^ 8 = 2 ^ 64 := by norm_num
      simp only [encode, tvEq, List.cons.injEq, true_and]
      rw [f64eq_eq_decide h1a h1b h2a h2b h3a h3b]
      constructor
      · intro h
        have := beBytes_inj (n := 8)
          (by rw [h256]; exact numberEncBits_lt_two_pow h1a)
          (by rw [h256]; exact numberEncBits_lt_two_pow h1b) h
        have := numberEncBits_inj h1a h1b h2a h2b this
        simp [this]
      · intro h
        have : n1 = n2 := by simpa using h
        rw [this]
    | String s => simp [encode, tvEq, jsonTagNull, jsonTagFalse, jsonTagTrue, jsonTagNumber, jsonTagString]
  | String s1 =>
    cases b with
    | Null => simp [encode, tvEq, jsonTagNull, jsonTagFalse, jsonTagTrue, jsonTagNumber, jsonTagString]
    | Bool b2 => cases b2 <;> simp [encode, tvEq, jsonTagNull, jsonTagFalse, jsonTagTrue, jsonTagNumber, jsonTagString]
    | Number n2 => simp [encode, tvEq, jsonTagNull, jsonTagFalse, jsonTagTrue, jsonTagNumber, jsonTagString]
    | String s2 => simp [encode, tvEq, jsonTagNull, jsonTagFalse, jsonTagTrue, jsonTagNumber, jsonTagString]


/-! ## The byte-level geometry of index keys (towards C2) -/

theorem bytesLt_nil_right (l : Bytes) : bytesLt l [] = false := by
  cases l <;> rfl

theorem bytesLe_append_left (c a b : Bytes) :
    bytesLe (c ++ a) (c ++ b) = bytesLe a b := by
  simp [bytesLe, bytesLt_append_left]

theorem beBytes_length (n x : Nat) : (beBytes n x).length = n := by
  induction n generalizing x with
  | zero => rfl
  | succ m ih => simp [beBytes, ih]

theorem encode_head_ge2 (c : TaggableValue) :
    ∃ h t, encode c = h :: t ∧ 2 ≤ h := by
  cases c with
  | Null => exact ⟨jsonTagNull, [], rfl, by norm_num [jsonTagNull]⟩
  | Bool b =>
    cases b with
    | false => exact ⟨jsonTagFalse, [], rfl, by norm_num [jsonTagFalse]⟩
    | true => exact ⟨jsonTagTrue, [], rfl, by norm_num [jsonTagTrue]⟩
  | Number n =>
    exact ⟨jsonTagNumber, beBytes 8 (numberEncBits n), rfl,
      by norm_num [jsonTagNumber]⟩
  | String s => exact ⟨jsonTagString, s, rfl, by norm_num [jsonTagString]⟩

theorem encodePath_cons_head (c : TaggableValue) (rest : List TaggableValue) :
    ∃ h t, encodePath (c :: rest) = h :: t ∧ 2 ≤ h := by
  obtain ⟨h, t, he, h2⟩ := encode_head_ge2 c
  cases rest with
  | nil => exact ⟨h, t, by simp [encodePath, he], h2⟩
  | cons d ds =>
    exact ⟨h, t ++ 1 :: encodePath (d :: ds), by simp [encodePath, he], h2⟩

theorem sepFree_ge2 {s : Bytes} (hs : sepFree s = true) {b : Nat}
    (hb : b ∈ s) : 2 ≤ b := by
  have := (List.all_eq_true.mp hs) b hb
  simp at this
  omega

theorem sepFree_tail {x : Nat} {xs : Bytes} (h : sepFree (x :: xs) = true) :
    sepFree xs = true := by
  simp [sepFree, List.all_cons] at h ⊢
  exact fun b hb => h.2 b hb

theorem sepFree_align :
    ∀ (s t : Bytes), sepFree s = true → sepFree t = true →
      ∀ (bu bw : Nat) (tu tw : Bytes), bu < 2 → bw < 2 →
        s ++ bu :: tu = t ++ bw :: tw → s = t ∧ bu = bw ∧ tu = tw := by
  intro s
  induction s with
  | nil =>
    intro t hs ht bu bw tu tw hbu hbw heq
    cases t with
    | nil =>
      simp at heq
      exact ⟨rfl, heq.1, heq.2⟩
    | cons y ys =>
      simp at heq
      have hy : 2 ≤ y := sepFree_ge2 ht (by simp)
      omega
  | cons x xs ih =>
    intro t hs ht bu bw tu tw hbu hbw heq
    cases t with
    | nil =>
      simp at heq
      have hx : 2 ≤ x := sepFree_ge2 hs (by simp)
      omega
    | cons y ys =>
      simp only [List.cons_append, List.cons.injEq] at heq
      obtain ⟨hxy, heq2⟩ := heq
      obtain ⟨h1, h2, h3⟩ := ih ys (sepFree_tail hs) (sepFree_tail ht)
        bu bw tu tw hbu hbw heq2
      exact ⟨by rw [hxy, h1], h2, h3⟩

theorem encode_align {c d : TaggableValue} (hc : wfEnc c = true)
    (hd : wfEnc d = true) :
    ∀ (bu bw : Nat) (tu tw : Bytes), bu < 2 → bw < 2 →
      encode c ++ bu :: tu = encode d ++ bw :: tw →
      encode c = encode d ∧ bu = bw ∧ tu = tw := by
  intro bu bw tu tw hbu hbw heq
  cases c with
  | Null =>
    cases d with
    | Null =>
      simp at heq
      exact ⟨rfl, heq.1, heq.2⟩
    | Bool b => cases b <;> simp [encode, jsonTagNull, jsonTagFalse, jsonTagTrue] at heq
    | Number n => simp [encode, jsonTagNull, jsonTagNumber] at heq
    | String s => simp [encode, jsonTagNull, jsonTagString] at heq
  | Bool b1 =>
    cases d with
    | Null => cases b1 <;> simp [encode, jsonTagNull, jsonTagFalse, jsonTagTrue] at heq
    | Bool b2 =>
      cases b1 <;> cases b2 <;> simp [encode, jsonTagFalse, jsonTagTrue] at heq
      · exact ⟨rfl, heq.1, heq.2⟩
      · exact ⟨rfl, heq.1, heq.2⟩
    | Number n => cases b1 <;> simp [encode, jsonTagFalse, jsonTagTrue, jsonTagNumber] at heq
    | String s => cases b1 <;> simp [encode, jsonTagFalse, jsonTagTrue, jsonTagString] at heq
  | Number n1 =>
    cases d with
    | Null => simp [encode, jsonTagNull, jsonTagNumber] at heq
    | Bool b => cases b <;> simp [encode, jsonTagFalse, jsonTagTrue, jsonTagNumber] at heq
    | Number n2 =>
      simp only [encode, List.cons_append, List.cons.injEq] at heq
      obtain ⟨hpay, htail⟩ := List.append_inj heq.2
        (by rw [beBytes_length, beBytes_length])
      injection htail with h2 h3
      refine ⟨?_, h2, h3⟩
      show jsonTagNumber :: beBytes 8 (numberEncBits n1) =
        jsonTagNumber :: beBytes 8 (numberEncBits n2)
      rw [hpay]
    | String s => simp [encode, jsonTagNumber, jsonTagString] at heq
  | String s1 =>
    cases d with
    | Null => simp [encode, jsonTagNull, jsonTagString] at heq
    | Bool b => cases b <;> simp [encode, jsonTagFalse, jsonTagTrue, jsonTagString] at heq
    | Number n => simp [encode, jsonTagNumber, jsonTagString] at heq
    | String s2 =>
      simp only [encode, List.cons_append, List.cons.injEq] at heq
      obtain ⟨h1, h2, h3⟩ := sepFree_align s1 s2 hc hd bu bw tu tw hbu hbw heq.2
      refine ⟨?_, h2, h3⟩
      show jsonTagString :: s1 = jsonTagString :: s2
      rw [h1]

theorem wfEnc_of_wfVal {c : TaggableValue} (h : wfVal c = true) :
    wfEnc c = true := by
  cases c <;> simp [wfVal, wfEnc] at h ⊢ <;> exact h

theorem wfEnc_of_wfComp {c : TaggableValue} (h : wfComp c = true) :
    wfEnc c = true := by
  cases c <;> simp [wfComp, wfEnc] at h ⊢
  exact h

theorem wfComp_number {n : Nat} (h : wfComp (.Number n) = true) :
    n < 2 ^ 64 ∧ isNaNbits n = false := by
  simp only [wfComp, Bool.and_eq_true, decide_eq_true_eq,
    Bool.not_eq_true'] at h
  exact h

theorem encComp_inj {c d : TaggableValue} (hc : wfComp c = true)
    (hd : wfComp d = true) (h : encode c = encode d) : c = d := by
  cases c with
  | Null => simp [wfComp] at hc
  | Bool b => simp [wfComp] at hc
  | Number n1 =>
    cases d with
    | Null => simp [wfComp] at hd
    | Bool b => simp [wfComp] at hd
    | Number n2 =>
      simp only [encode, List.cons.injEq] at h
      obtain ⟨h64a, hNa⟩ := wfComp_number hc
      obtain ⟨h64b, hNb⟩ := wfComp_number hd
      have h256 : (256 : Nat) ^ 8 = 2 ^ 64 := by norm_num
      have hp := beBytes_inj (n := 8)
        (by rw [h256]; exact numberEncBits_lt_two_pow h64a)
        (by rw [h256]; exact numberEncBits_lt_two_pow h64b) h.2
      rw [numberEncBits_inj h64a h64b hNa hNb hp]
    | String s => simp [encode, jsonTagNumber, jsonTagString] at h
  | String s1 =>
    cases d with
    | Null => simp [wfComp] at hd
    | Bool b => simp [wfComp] at hd
    | Number n2 => simp [encode, jsonTagNumber, jsonTagString] at h
    | String s2 =>
      simp [encode, jsonTagString] at h
      rw [h]

theorem encodePath_append (p r : List TaggableValue) (hp : p ≠ [])
    (hr : r ≠ []) :
    encodePath (p ++ r) = encodePath p ++ 1 :: encodePath r := by
  induction p with
  | nil => exact absurd rfl hp
  | cons c p2 ih =>
    cases p2 with
    | nil =>
      cases r with
      | nil => exact absurd rfl hr
      | cons d ds => simp [encodePath]
    | cons c2 p3 =>
      have ih2 := ih (by simp)
      calc encodePath ((c :: c2 :: p3) ++ r)
          = encode c ++ 1 :: encodePath ((c2 :: p3) ++ r) := by
            cases r with
            | nil => exact absurd rfl hr
            | cons d ds => rfl
        _ = encode c ++ 1 :: (encodePath (c2 :: p3) ++ 1 :: encodePath r) :=
            by rw [ih2]
        _ = (encode c ++ 1 :: encodePath (c2 :: p3)) ++ 1 :: encodePath r :=
            by simp
        _ = encodePath (c :: c2 :: p3) ++ 1 :: encodePath r := rfl

theorem bytesLt_decomp {a b : Bytes} (h : bytesLt a b = true) :
    (∃ d, d ≠ [] ∧ b = a ++ d) ∨
    (∃ pre x y sa sb, a = pre ++ x :: sa ∧ b = pre ++ y :: sb ∧ x < y) := by
  induction a generalizing b with
  | nil =>
    cases b with
    | nil => simp [bytesLt] at h
    | cons y ys => exact Or.inl ⟨y :: ys, by simp, rfl⟩
  | cons x xs ih =>
    cases b with
    | nil => simp [bytesLt] at h
    | cons y ys =>
      simp only [bytesLt, Bool.or_eq_true, Bool.and_eq_true, beq_iff_eq,
        decide_eq_true_eq] at h
      rcases h with h | ⟨hxy, h⟩
      · exact Or.inr ⟨[], x, y, xs, ys, rfl, rfl, h⟩
      · subst hxy
        rcases ih h with ⟨d, hd, hb⟩ | ⟨pre, u, w, sa, sb, ha, hb, huw⟩
        · exact Or.inl ⟨d, hd, by rw [hb]; rfl⟩
        · exact Or.inr ⟨x :: pre, u, w, sa, sb, by rw [ha]; rfl,
            by rw [hb]; rfl, huw⟩

theorem bytesLt_append_of_diverge {pre sa sb : Bytes} {x y : Nat}
    (hxy : x < y) (s t : Bytes) :
    bytesLt ((pre ++ x :: sa) ++ s) ((pre ++ y :: sb) ++ t) = true := by
  rw [List.append_assoc, List.append_assoc, List.cons_append,
    List.cons_append, bytesLt_append_left]
  exact bytesLt_cons_lt hxy _ _

theorem bytesLt_eqlen_append {a b : Bytes} (hlen : a.length = b.length)
    (h : bytesLt a b = true) (s t : Bytes) :
    bytesLt (a ++ s) (b ++ t) = true := by
  induction a generalizing b with
  | nil =>
    cases b with
    | nil => simp [bytesLt] at h
    | cons y ys => simp at hlen
  | cons x xs ih =>
    cases b with
    | nil => simp [bytesLt] at h
    | cons y ys =>
      simp only [bytesLt, Bool.or_eq_true, Bool.and_eq_true, beq_iff_eq,
        decide_eq_true_eq] at h
      rcases h with h | ⟨hxy, h⟩
      · exact bytesLt_cons_lt h _ _
      · subst hxy
        rw [List.cons_append, List.cons_append, bytesLt_cons_same]
        exact ih (by simpa using hlen) h

theorem encLt_pad {c d : TaggableValue} (hc : wfEnc c = true)
    (hd : wfEnc d = true) (h : bytesLt (encode c) (encode d) = true)
    (β t : Bytes) :
    bytesLt (encode c ++ 0 :: β) (encode d ++ t) = true := by
  rcases bytesLt_decomp h with ⟨u, hu, henc⟩ | ⟨pre, x, y, sa, sb, ha, hb, hxy⟩
  · -- encode d extends encode c: only two strings can do that, and the
    -- extension starts with a separator-free byte ≥ 2 > 0.
    cases c with
    | Null =>
      cases d with
      | Null => simp [encode] at henc; exact absurd henc hu
      | Bool b =>
        cases b <;> simp [encode, jsonTagNull, jsonTagFalse, jsonTagTrue] at henc <;>
          simp [henc] at hu
      | Number n =>
        exact absurd henc (by simp [encode, jsonTagNull, jsonTagNumber])
      | String s =>
        exact absurd henc (by simp [encode, jsonTagNull, jsonTagString])
    | Bool b1 =>
      cases d with
      | Null =>
        cases b1 <;> exact absurd henc
          (by simp [encode, jsonTagNull, jsonTagFalse, jsonTagTrue])
      | Bool b2 =>
        cases b1 <;> cases b2 <;>
          simp [encode, jsonTagFalse, jsonTagTrue] at henc <;> simp [henc] at hu
      | Number n =>
        cases b1 <;> exact absurd henc
          (by simp [encode, jsonTagFalse, jsonTagTrue, jsonTagNumber])
      | String s =>
        cases b1 <;> exact absurd henc
          (by simp [encode, jsonTagFalse, jsonTagTrue, jsonTagString])
    | Number n1 =>
      cases d with
      | Null => exact absurd henc (by simp [encode, jsonTagNull, jsonTagNumber])
      | Bool b =>
        cases b <;> exact absurd henc
          (by simp [encode, jsonTagFalse, jsonTagTrue, jsonTagNumber])
      | Number n2 =>
        have hlen := congrArg List.length henc
        simp [encode, beBytes_length] at hlen
        simp [hlen] at hu
      | String s => exact absurd henc (by simp [encode, jsonTagNumber, jsonTagString])
    | String s1 =>
      cases d with
      | Null => exact absurd henc (by simp [encode, jsonTagNull, jsonTagString])
      | Bool b =>
        cases b <;> exact absurd henc
          (by simp [encode, jsonTagFalse, jsonTagTrue, jsonTagString])
      | Number n => exact absurd henc (by simp [encode, jsonTagNumber, jsonTagString])
      | String s2 =>
        simp only [encode, List.cons_append, List.cons.injEq] at henc
        cases u with
        | nil => exact absurd rfl hu
        | cons h0 u2 =>
          have hh0 : 2 ≤ h0 := by
            apply sepFree_ge2 (s := s2) hd
            rw [henc.2]
            simp
          rw [henc.2]
          show bytesLt ((jsonTagString :: s1) ++ 0 :: β)
            ((jsonTagString :: s1) ++ (h0 :: u2) ++ t) = true
          rw [List.append_assoc, bytesLt_append_left]
          exact bytesLt_cons_lt (by omega) _ _
  · rw [ha, hb]
    exact bytesLt_append_of_diverge hxy _ _

theorem encLe_pad {c d : TaggableValue} (hc : wfEnc c = true)
    (hd : wfEnc d = true) (h : bytesLt (encode c) (encode d) = true)
    {b : Nat} (hb : b ≤ 2) (t : Bytes) :
    bytesLe (encode c ++ [b]) (encode d ++ t) = true := by
  rcases bytesLt_decomp h with ⟨u, hu, henc⟩ | ⟨pre, x, y, sa, sb, ha, hb2, hxy⟩
  · cases c with
    | Null =>
      cases d with
      | Null => simp [encode] at henc; exact absurd henc hu
      | Bool b2 =>
        cases b2 <;> simp [encode, jsonTagNull, jsonTagFalse, jsonTagTrue] at henc <;>
          simp [henc] at hu
      | Number n =>
        exact absurd henc (by simp [encode, jsonTagNull, jsonTagNumber])
      | String s =>
        exact absurd henc (by simp [encode, jsonTagNull, jsonTagString])
    | Bool b1 =>
      cases d with
      | Null =>
        cases b1 <;> exact absurd henc
          (by simp [encode, jsonTagNull, jsonTagFalse, jsonTagTrue])
      | Bool b2 =>
        cases b1 <;> cases b2 <;>
          simp [encode, jsonTagFalse, jsonTagTrue] at henc <;> simp [henc] at hu
      | Number n =>
        cases b1 <;> exact absurd henc
          (by simp [encode, jsonTagFalse, jsonTagTrue, jsonTagNumber])
      | String s =>
        cases b1 <;> exact absurd henc
          (by simp [encode, jsonTagFalse, jsonTagTrue, jsonTagString])
    | Number n1 =>
      cases d with
      | Null => exact absurd henc (by simp [encode, jsonTagNull, jsonTagNumber])
      | Bool b2 =>
        cases b2 <;> exact absurd henc
          (by simp [encode, jsonTagFalse, jsonTagTrue, jsonTagNumber])
      | Number n2 =>
        have hlen := congrArg List.length henc
        simp [encode, beBytes_length] at hlen
        simp [hlen] at hu
      | String s => exact absurd henc (by simp [encode, jsonTagNumber, jsonTagString])
    | String s1 =>
      cases d with
      | Null => exact absurd henc (by simp [encode, jsonTagNull, jsonTagString])
      | Bool b2 =>
        cases b2 <;> exact absurd henc
          (by simp [encode, jsonTagFalse, jsonTagTrue, jsonTagString])
      | Number n => exact absurd henc (by simp [encode, jsonTagNumber, jsonTagString])
      | String s2 =>
        simp only [encode, List.cons_append, List.cons.injEq] at henc
        cases u with
        | nil => exact absurd rfl hu
        | cons h0 u2 =>
          have hh0 : 2 ≤ h0 := by
            apply sepFree_ge2 (s := s2) hd
            rw [henc.2]
            simp
          rw [henc.2]
          show bytesLe ((jsonTagString :: s1) ++ [b])
            ((jsonTagString :: s1) ++ (h0 :: u2) ++ t) = true
          rw [List.append_assoc, bytesLe_append_left]
          rcases Nat.lt_or_ge b h0 with hlt | hge
          · exact bytesLe_of_lt (bytesLt_cons_lt hlt _ _)
          · have hbh : b = h0 := by omega
            subst hbh
            simp [bytesLe, bytesLt_cons_same, bytesLt_nil_right]
  · rw [ha, hb2]
    exact bytesLe_of_lt (bytesLt_append_of_diverge hxy _ _)

theorem bytesLt_cons (x y : Nat) (xs ys : Bytes) :
    bytesLt (x :: xs) (y :: ys) =
      (decide (x < y) || (x == y && bytesLt xs ys)) := rfl

theorem window_iff (a : Bytes) :
    ∀ (s : Bytes),
      (bytesLe (a ++ [0]) s = true ∧ bytesLt s (a ++ [2]) = true) ↔
      ∃ b t, s = a ++ b :: t ∧ b < 2 := by
  induction a with
  | nil =>
    intro s
    cases s with
    | nil => simp [bytesLe, bytesLt]
    | cons x xs =>
      have h1 : bytesLt (x :: xs) [0] = false := by
        rw [show ([0] : Bytes) = 0 :: [] from rfl, bytesLt_cons,
          bytesLt_nil_right]
        simp
      have h2 : bytesLt (x :: xs) [2] = decide (x < 2) := by
        rw [show ([2] : Bytes) = 2 :: [] from rfl, bytesLt_cons,
          bytesLt_nil_right]
        simp
      constructor
      · intro hcl
        have hx2 : x < 2 := by
          have := hcl.2
          rw [List.nil_append, h2] at this
          simpa using this
        exact ⟨x, xs, rfl, hx2⟩
      · rintro ⟨b, t, heq, hb⟩
        rw [List.nil_append] at heq
        injection heq with hx ht
        subst hx
        subst ht
        constructor
        · rw [List.nil_append]
          simp [bytesLe, h1]
        · rw [List.nil_append, h2]
          simpa using hb
  | cons y a2 ih =>
    intro s
    cases s with
    | nil =>
      constructor
      · rintro ⟨h, -⟩
        rw [show (y :: a2) ++ [0] = y :: (a2 ++ [0]) from rfl] at h
        simp [bytesLe, bytesLt] at h
      · rintro ⟨b, t, heq, -⟩
        rw [List.cons_append] at heq
        simp at heq
    | cons x xs =>
      by_cases hxy : x = y
      · subst hxy
        rw [show (x :: a2) ++ [0] = x :: (a2 ++ [0]) from rfl,
          show (x :: a2) ++ [2] = x :: (a2 ++ [2]) from rfl]
        have hle : bytesLe (x :: (a2 ++ [0])) (x :: xs) =
            bytesLe (a2 ++ [0]) xs := by
          simp only [bytesLe, bytesLt_cons_same]
        rw [hle, bytesLt_cons_same, ih xs]
        constructor
        · rintro ⟨b, t, heq, hb⟩
          exact ⟨b, t, by rw [List.cons_append, heq], hb⟩
        · rintro ⟨b, t, heq, hb⟩
          rw [List.cons_append] at heq
          injection heq with h1 h2
          exact ⟨b, t, h2, hb⟩
      · constructor
        · rintro ⟨hlo, hhi⟩
          exfalso
          rw [show (y :: a2) ++ [0] = y :: (a2 ++ [0]) from rfl] at hlo
          rw [show (y :: a2) ++ [2] = y :: (a2 ++ [2]) from rfl] at hhi
          rw [bytesLt_cons] at hhi
          have hxlty : x < y := by
            simp only [Bool.or_eq_true, Bool.and_eq_true, beq_iff_eq,
              decide_eq_true_eq] at hhi
            rcases hhi with h | ⟨h, -⟩
            · exact h
            · exact absurd h hxy
          have : bytesLt (x :: xs) (y :: (a2 ++ [0])) = true :=
            bytesLt_cons_lt hxlty _ _
          rw [bytesLe, this] at hlo
          simp at hlo
        · rintro ⟨b, t, heq, hb⟩
          rw [List.cons_append] at heq
          injection heq with h1 h2
          exact absurd h1 hxy

theorem encodePath_align :
    ∀ (p q : List TaggableValue), (∀ c ∈ p, wfComp c = true) →
      (∀ c ∈ q, wfComp c = true) →
      ∀ (T : Bytes) (b : Nat) (t : Bytes), b < 2 →
        encodePath q ++ 0 :: T = encodePath p ++ b :: t →
        q = p ∨ (p ≠ [] ∧ ∃ r, r ≠ [] ∧ q = p ++ r) := by
  intro p
  induction p with
  | nil =>
    intro q hp hq T b t hb heq
    cases q with
    | nil => exact Or.inl rfl
    | cons d q2 =>
      obtain ⟨h, tl, he, h2⟩ := encodePath_cons_head d q2
      rw [he] at heq
      simp only [encodePath, List.nil_append, List.cons_append,
        List.cons.injEq] at heq
      omega
  | cons c p2 ih =>
    intro q hp hq T b t hb heq
    cases q with
    | nil =>
      obtain ⟨h, tl, he, h2⟩ := encodePath_cons_head c p2
      rw [he] at heq
      simp only [encodePath, List.nil_append, List.cons_append,
        List.cons.injEq] at heq
      omega
    | cons d q2 =>
      have hcw : wfComp c = true := hp c (by simp)
      have hdw : wfComp d = true := hq d (by simp)
      cases p2 with
      | nil =>
        cases q2 with
        | nil =>
          -- both singleton paths
          have heq2 : encode d ++ 0 :: T = encode c ++ b :: t := by
            simpa [encodePath] using heq
          obtain ⟨he, -, -⟩ := encode_align (wfEnc_of_wfComp hdw)
            (wfEnc_of_wfComp hcw) 0 b T t (by omega) hb heq2
          exact Or.inl (by rw [encComp_inj hdw hcw he])
        | cons d2 q3 =>
          -- query path [c], stored path d :: d2 :: q3
          have heq2 : encode d ++ 1 :: (encodePath (d2 :: q3) ++ 0 :: T) =
              encode c ++ b :: t := by
            rw [show encodePath (d :: d2 :: q3) =
              encode d ++ 1 :: encodePath (d2 :: q3) from rfl] at heq
            simpa [encodePath] using heq
          obtain ⟨he, -, -⟩ := encode_align (wfEnc_of_wfComp hdw)
            (wfEnc_of_wfComp hcw) 1 b _ t (by omega) hb heq2
          refine Or.inr ⟨by simp, d2 :: q3, by simp, ?_⟩
          rw [encComp_inj hdw hcw he]
          rfl
      | cons c2 p3 =>
        cases q2 with
        | nil =>
          -- stored path [d], query path c :: c2 :: p3: separators clash
          have heq2 : encode d ++ 0 :: T =
              encode c ++ 1 :: (encodePath (c2 :: p3) ++ b :: t) := by
            rw [show encodePath (c :: c2 :: p3) =
              encode c ++ 1 :: encodePath (c2 :: p3) from rfl] at heq
            simpa [encodePath] using heq
          obtain ⟨-, h01, -⟩ := encode_align (wfEnc_of_wfComp hdw)
            (wfEnc_of_wfComp hcw) 0 1 _ _ (by omega) (by omega) heq2
          omega
        | cons d2 q3 =>
          have heq2 : encode d ++ 1 :: (encodePath (d2 :: q3) ++ 0 :: T) =
              encode c ++ 1 :: (encodePath (c2 :: p3) ++ b :: t) := by
            rw [show encodePath (c :: c2 :: p3) =
              encode c ++ 1 :: encodePath (c2 :: p3) from rfl,
              show encodePath (d :: d2 :: q3) =
              encode d ++ 1 :: encodePath (d2 :: q3) from rfl] at heq
            simpa using heq
          obtain ⟨he, -, htl⟩ := encode_align (wfEnc_of_wfComp hdw)
            (wfEnc_of_wfComp hcw) 1 1 _ _ (by omega) (by omega) heq2
          have hdc : d = c := encComp_inj hdw hcw he
          subst hdc
          rcases ih (d2 :: q3) (fun x hx => hp x (by simp [hx]))
            (fun x hx => hq x (by simp [hx])) T b t hb htl with
            h | ⟨-, r, hr, hq3⟩
          · exact Or.inl (by rw [h])
          · exact Or.inr ⟨by simp, r, hr, by rw [show (d :: c2 :: p3) ++ r =
              d :: ((c2 :: p3) ++ r) from rfl, ← hq3]⟩

theorem tv_total {a b : TaggableValue} (ha : wfVal a = true)
    (hb : wfVal b = true) (h1 : tvLt a b = false) (h2 : tvLt b a = false) :
    tvEq a b = true := by
  have e1 : bytesLt (encode a) (encode b) = false := by
    rw [encode_lt_iff a b ha hb]
    exact h1
  have e2 : bytesLt (encode b) (encode a) = false := by
    rw [encode_lt_iff b a hb ha]
    exact h2
  exact (encode_eq_iff a b ha hb).mp (bytesLt_of_ne_false _ _ e1 e2)

theorem tvLe_false {a b : TaggableValue} (ha : wfVal a = true)
    (hb : wfVal b = true) (h : tvLe a b = false) : tvLt b a = true := by
  simp only [tvLe, Bool.or_eq_false_iff] at h
  by_cases h2 : tvLt b a = true
  · exact h2
  · have := tv_total ha hb h.1 (by simpa using h2)
    rw [this] at h
    exact absurd h.2 (by simp)

theorem tvLt_false {a b : TaggableValue} (ha : wfVal a = true)
    (hb : wfVal b = true) (h : tvLt a b = false) :
    tvLt b a = true ∨ tvEq a b = true := by
  by_cases h2 : tvLt b a = true
  · exact Or.inl h2
  · exact Or.inr (tv_total ha hb h (by simpa using h2))

theorem cc_le (A B : Bytes) :
    bytesLe (2 :: 0 :: A) (2 :: 0 :: B) = bytesLe A B := by
  simp [bytesLe, bytesLt_cons_same]

theorem cc_lt (A B : Bytes) :
    bytesLt (2 :: 0 :: A) (2 :: 0 :: B) = bytesLt A B := by
  simp [bytesLt_cons_same]

theorem p_start_eq (p : List TaggableValue) :
    encode_index_query_p_start_key p = 2 :: 0 :: (encodePath p ++ [0]) := by
  simp [encode_index_query_p_start_key, query_lower_bound]

theorem p_end_eq (p : List TaggableValue) :
    encode_index_query_p_end_key p = 2 :: 0 :: (encodePath p ++ [2]) := by
  simp [encode_index_query_p_end_key, query_upper_bound]

theorem le_zero_one (Y X : Bytes) : bytesLe (0 :: Y) (1 :: X) = true := by
  rw [bytesLe, bytesLt_cons]
  simp

theorem lt_cons_two (b : Nat) (X : Bytes) (hb : b < 2) :
    bytesLt (b :: X) [2] = true := by
  rw [show ([2] : Bytes) = 2 :: [] from rfl]
  exact bytesLt_cons_lt hb _ _

/-- The E-predicate scan window contains an index key suffix exactly
when the stored path equals the queried path and the stored value
equals the queried value under the engine order. -/
theorem inWindow_eq (p : List TaggableValue) (v : TaggableValue)
    (q : List TaggableValue) (v2 : TaggableValue) (β : Bytes)
    (hp : ∀ c ∈ p, wfComp c = true) (hq : ∀ c ∈ q, wfComp c = true)
    (hv : wfVal v = true) (hv2 : wfVal v2 = true) :
    (bytesLe (encode_index_query_pv_start_key p v)
        (2 :: 0 :: (encodePath q ++ 0 :: (encode v2 ++ 0 :: β))) = true ∧
     bytesLt (2 :: 0 :: (encodePath q ++ 0 :: (encode v2 ++ 0 :: β)))
        (encode_index_query_pv_end_key p v) = true) ↔
    (q = p ∧ tvEq v2 v = true) := by
  rw [show encode_index_query_pv_start_key p v =
      2 :: 0 :: ((encodePath p ++ 0 :: encode v) ++ [0]) from rfl,
    show encode_index_query_pv_end_key p v =
      2 :: 0 :: ((encodePath p ++ 0 :: encode v) ++ [2]) from rfl,
    cc_le, cc_lt, window_iff]
  constructor
  · rintro ⟨b, t, heq, hb⟩
    have heq2 : encodePath q ++ 0 :: (encode v2 ++ 0 :: β) =
        encodePath p ++ 0 :: (encode v ++ b :: t) := by
      rw [heq]
      simp
    rcases encodePath_align p q hp hq _ 0 _ (by omega) heq2 with
      hqp | ⟨hpn, r, hr, hqr⟩
    · subst hqp
      have h3 := List.append_cancel_left heq2
      injection h3 with h4 h5
      obtain ⟨he, -, -⟩ := encode_align (wfEnc_of_wfVal hv2)
        (wfEnc_of_wfVal hv) 0 b _ _ (by omega) hb h5
      exact ⟨rfl, (encode_eq_iff v2 v hv2 hv).mp he⟩
    · exfalso
      rw [hqr, encodePath_append p r hpn hr] at heq2
      rw [show (encodePath p ++ 1 :: encodePath r) ++
          0 :: (encode v2 ++ 0 :: β) =
          encodePath p ++ 1 :: (encodePath r ++ 0 :: (encode v2 ++ 0 :: β))
          from by simp] at heq2
      have h3 := List.append_cancel_left heq2
      injection h3 with h4 h5
      omega
  · rintro ⟨hqp, hteq⟩
    subst hqp
    have he : encode v2 = encode v := (encode_eq_iff v2 v hv2 hv).mpr hteq
    rw [he]
    exact ⟨0, β, by simp, by omega⟩

/-- The GTE-predicate scan window contains an index key suffix exactly
when the stored path equals the queried path and the stored value is ≥
the queried value, or the stored path strictly extends the queried
path (in which case the value is unconstrained). -/
theorem inWindow_gte (p : List TaggableValue) (v : TaggableValue)
    (q : List TaggableValue) (v2 : TaggableValue) (β : Bytes)
    (hp : ∀ c ∈ p, wfComp c = true) (hq : ∀ c ∈ q, wfComp c = true)
    (hv : wfVal v = true) (hv2 : wfVal v2 = true) :
    (bytesLe (encode_index_query_pv_start_key p v)
        (2 :: 0 :: (encodePath q ++ 0 :: (encode v2 ++ 0 :: β))) = true ∧
     bytesLt (2 :: 0 :: (encodePath q ++ 0 :: (encode v2 ++ 0 :: β)))
        (encode_index_query_p_end_key p) = true) ↔
    ((q = p ∧ tvLe v v2 = true) ∨
     (p ≠ [] ∧ ∃ r, r ≠ [] ∧ q = p ++ r)) := by
  rw [show encode_index_query_pv_start_key p v =
      2 :: 0 :: ((encodePath p ++ 0 :: encode v) ++ [0]) from rfl,
    p_end_eq, cc_le, cc_lt]
  constructor
  · rintro ⟨hlo, hhi⟩
    have hle1 : bytesLe (encodePath p ++ [0])
        ((encodePath p ++ 0 :: encode v) ++ [0]) = true := by
      rw [show (encodePath p ++ 0 :: encode v) ++ [0] =
        (encodePath p ++ [0]) ++ (encode v ++ [0]) from by simp]
      exact bytesLe_self_append _ _
    have hlo2 : bytesLe (encodePath p ++ [0])
        (encodePath q ++ 0 :: (encode v2 ++ 0 :: β)) = true :=
      bytesLe_trans hle1 hlo
    obtain ⟨b, t, heq, hb⟩ := (window_iff (encodePath p) _).mp ⟨hlo2, hhi⟩
    rcases encodePath_align p q hp hq _ b _ hb heq with
      hqp | ⟨hpn, r, hr, hqr⟩
    · subst hqp
      refine Or.inl ⟨rfl, ?_⟩
      by_cases hno : tvLe v v2 = true
      · exact hno
      · exfalso
        have hlt : tvLt v2 v = true :=
          tvLe_false hv hv2 (by simpa using hno)
        have hblt : bytesLt (encode v2) (encode v) = true := by
          rw [encode_lt_iff v2 v hv2 hv]
          exact hlt
        have hpad := encLt_pad (wfEnc_of_wfVal hv2) (wfEnc_of_wfVal hv)
          hblt β [0]
        rw [show (encodePath q ++ 0 :: encode v) ++ [0] =
            (encodePath q ++ [0]) ++ (encode v ++ [0]) from by simp,
          show encodePath q ++ 0 :: (encode v2 ++ 0 :: β) =
            (encodePath q ++ [0]) ++ (encode v2 ++ 0 :: β) from by simp,
          bytesLe_append_left, bytesLe, hpad] at hlo
        simp at hlo
    · exact Or.inr ⟨hpn, r, hr, hqr⟩
  · rintro (⟨hqp, hle⟩ | ⟨hpn, r, hr, hqr⟩)
    · subst hqp
      constructor
      · rw [show (encodePath q ++ 0 :: encode v) ++ [0] =
            (encodePath q ++ [0]) ++ (encode v ++ [0]) from by simp,
          show encodePath q ++ 0 :: (encode v2 ++ 0 :: β) =
            (encodePath q ++ [0]) ++ (encode v2 ++ 0 :: β) from by simp,
          bytesLe_append_left]
        simp only [tvLe, Bool.or_eq_true] at hle
        rcases hle with hlt | heqv
        · exact encLe_pad (wfEnc_of_wfVal hv) (wfEnc_of_wfVal hv2)
            (by rw [encode_lt_iff v v2 hv hv2]; exact hlt) (by omega) _
        · have he : encode v = encode v2 :=
            (encode_eq_iff v v2 hv hv2).mpr heqv
          rw [he, show encode v2 ++ 0 :: β = (encode v2 ++ [0]) ++ β
            from by simp]
          exact bytesLe_self_append _ _
      · rw [bytesLt_append_left]
        exact lt_cons_two 0 _ (by omega)
    · rw [hqr, encodePath_append p r hpn hr,
        show (encodePath p ++ 1 :: encodePath r) ++
          0 :: (encode v2 ++ 0 :: β) =
          encodePath p ++ 1 :: (encodePath r ++ 0 :: (encode v2 ++ 0 :: β))
          from by simp]
      constructor
      · rw [show (encodePath p ++ 0 :: encode v) ++ [0] =
            encodePath p ++ 0 :: (encode v ++ [0]) from by simp,
          show bytesLe (encodePath p ++ 0 :: (encode v ++ [0]))
              (encodePath p ++ 1 :: (encodePath r ++ 0 :: (encode v2 ++ 0 :: β))) =
            bytesLe (0 :: (encode v ++ [0]))
              (1 :: (encodePath r ++ 0 :: (encode v2 ++ 0 :: β)))
            from bytesLe_append_left _ _ _]
        exact le_zero_one _ _
      · rw [bytesLt_append_left]
        exact lt_cons_two 1 _ (by omega)

theorem lt_one_zero (X Y : Bytes) : bytesLt (1 :: X) (0 :: Y) = false := by
  rw [bytesLt_cons]
  simp

theorem lt_zero_nil (β : Bytes) : bytesLt (0 :: β) [0] = false := by
  rw [show ([0] : Bytes) = 0 :: [] from rfl, bytesLt_cons, bytesLt_nil_right]
  simp

/-- The GT-predicate scan window: path equal and value strictly
greater, or path strictly extending. -/
theorem inWindow_gt (p : List TaggableValue) (v : TaggableValue)
    (q : List TaggableValue) (v2 : TaggableValue) (β : Bytes)
    (hp : ∀ c ∈ p, wfComp c = true) (hq : ∀ c ∈ q, wfComp c = true)
    (hv : wfVal v = true) (hv2 : wfVal v2 = true) :
    (bytesLe (encode_index_query_pv_end_key p v)
        (2 :: 0 :: (encodePath q ++ 0 :: (encode v2 ++ 0 :: β))) = true ∧
     bytesLt (2 :: 0 :: (encodePath q ++ 0 :: (encode v2 ++ 0 :: β)))
        (encode_index_query_p_end_key p) = true) ↔
    ((q = p ∧ tvLt v v2 = true) ∨
     (p ≠ [] ∧ ∃ r, r ≠ [] ∧ q = p ++ r)) := by
  rw [show encode_index_query_pv_end_key p v =
      2 :: 0 :: ((encodePath p ++ 0 :: encode v) ++ [2]) from rfl,
    p_end_eq, cc_le, cc_lt]
  constructor
  · rintro ⟨hlo, hhi⟩
    have hle1 : bytesLe (encodePath p ++ [0])
        ((encodePath p ++ 0 :: encode v) ++ [2]) = true := by
      rw [show (encodePath p ++ 0 :: encode v) ++ [2] =
        (encodePath p ++ [0]) ++ (encode v ++ [2]) from by simp]
      exact bytesLe_self_append _ _
    have hlo2 : bytesLe (encodePath p ++ [0])
        (encodePath q ++ 0 :: (encode v2 ++ 0 :: β)) = true :=
      bytesLe_trans hle1 hlo
    obtain ⟨b, t, heq, hb⟩ := (window_iff (encodePath p) _).mp ⟨hlo2, hhi⟩
    rcases encodePath_align p q hp hq _ b _ hb heq with
      hqp | ⟨hpn, r, hr, hqr⟩
    · subst hqp
      refine Or.inl ⟨rfl, ?_⟩
      by_cases hno : tvLt v v2 = true
      · exact hno
      · exfalso
        rw [show (encodePath q ++ 0 :: encode v) ++ [2] =
            (encodePath q ++ [0]) ++ (encode v ++ [2]) from by simp,
          show encodePath q ++ 0 :: (encode v2 ++ 0 :: β) =
            (encodePath q ++ [0]) ++ (encode v2 ++ 0 :: β) from by simp,
          bytesLe_append_left] at hlo
        rcases tvLt_false hv hv2 (by simpa using hno) with hlt | heqv
        · have hpad := encLt_pad (wfEnc_of_wfVal hv2) (wfEnc_of_wfVal hv)
            (by rw [encode_lt_iff v2 v hv2 hv]; exact hlt) β [2]
          rw [bytesLe, hpad] at hlo
          simp at hlo
        · have he : encode v = encode v2 :=
            (encode_eq_iff v v2 hv hv2).mpr heqv
          rw [he, show encode v2 ++ 0 :: β = (encode v2 ++ [0]) ++ β
              from by simp,
            show encode v2 ++ [2] = (encode v2) ++ [2] from rfl] at hlo
          rw [show ((encode v2 ++ [0]) ++ β : Bytes) =
              encode v2 ++ (0 :: β) from by simp,
            bytesLe_append_left] at hlo
          rw [bytesLe, lt_cons_two 0 _ (by omega)] at hlo
          simp at hlo
    · exact Or.inr ⟨hpn, r, hr, hqr⟩
  · rintro (⟨hqp, hlt⟩ | ⟨hpn, r, hr, hqr⟩)
    · subst hqp
      constructor
      · rw [show (encodePath q ++ 0 :: encode v) ++ [2] =
            (encodePath q ++ [0]) ++ (encode v ++ [2]) from by simp,
          show encodePath q ++ 0 :: (encode v2 ++ 0 :: β) =
            (encodePath q ++ [0]) ++ (encode v2 ++ 0 :: β) from by simp,
          bytesLe_append_left]
        exact encLe_pad (wfEnc_of_wfVal hv) (wfEnc_of_wfVal hv2)
          (by rw [encode_lt_iff v v2 hv hv2]; exact hlt) (by omega) _
      · rw [bytesLt_append_left]
        exact lt_cons_two 0 _ (by omega)
    · rw [hqr, encodePath_append p r hpn hr,
        show (encodePath p ++ 1 :: encodePath r) ++
          0 :: (encode v2 ++ 0 :: β) =
          encodePath p ++ 1 :: (encodePath r ++ 0 :: (encode v2 ++ 0 :: β))
          from by simp]
      constructor
      · rw [show (encodePath p ++ 0 :: encode v) ++ [2] =
            encodePath p ++ 0 :: (encode v ++ [2]) from by simp,
          show bytesLe (encodePath p ++ 0 :: (encode v ++ [2]))
              (encodePath p ++ 1 :: (encodePath r ++ 0 :: (encode v2 ++ 0 :: β))) =
            bytesLe (0 :: (encode v ++ [2]))
              (1 :: (encodePath r ++ 0 :: (encode v2 ++ 0 :: β)))
            from bytesLe_append_left _ _ _]
        exact le_zero_one _ _
      · rw [bytesLt_append_left]
        exact lt_cons_two 1 _ (by omega)

/-- The LT-predicate scan window: path equal and value strictly less;
extension paths never fall below the path-value lower bound. -/
theorem inWindow_lt (p : List TaggableValue) (v : TaggableValue)
    (q : List TaggableValue) (v2 : TaggableValue) (β : Bytes)
    (hp : ∀ c ∈ p, wfComp c = true) (hq : ∀ c ∈ q, wfComp c = true)
    (hv : wfVal v = true) (hv2 : wfVal v2 = true) :
    (bytesLe (encode_index_query_p_start_key p)
        (2 :: 0 :: (encodePath q ++ 0 :: (encode v2 ++ 0 :: β))) = true ∧
     bytesLt (2 :: 0 :: (encodePath q ++ 0 :: (encode v2 ++ 0 :: β)))
        (encode_index_query_pv_start_key p v) = true) ↔
    (q = p ∧ tvLt v2 v = true) := by
  rw [p_start_eq,
    show encode_index_query_pv_start_key p v =
      2 :: 0 :: ((encodePath p ++ 0 :: encode v) ++ [0]) from rfl,
    cc_le, cc_lt]
  constructor
  · rintro ⟨hlo, hhi⟩
    have hhi2 : bytesLt (encodePath q ++ 0 :: (encode v2 ++ 0 :: β))
        (encodePath p ++ [2]) = true := by
      apply bytesLt_of_lt_of_le hhi
      rw [show (encodePath p ++ 0 :: encode v) ++ [0] =
          encodePath p ++ 0 :: (encode v ++ [0]) from by simp,
        bytesLe_append_left]
      exact bytesLe_of_lt (lt_cons_two 0 _ (by omega))
    obtain ⟨b, t, heq, hb⟩ := (window_iff (encodePath p) _).mp ⟨hlo, hhi2⟩
    rcases encodePath_align p q hp hq _ b _ hb heq with
      hqp | ⟨hpn, r, hr, hqr⟩
    · subst hqp
      refine ⟨rfl, ?_⟩
      rw [show (encodePath q ++ 0 :: encode v) ++ [0] =
          (encodePath q ++ [0]) ++ (encode v ++ [0]) from by simp,
        show encodePath q ++ 0 :: (encode v2 ++ 0 :: β) =
          (encodePath q ++ [0]) ++ (encode v2 ++ 0 :: β) from by simp,
        bytesLt_append_left] at hhi
      by_cases hno : tvLt v2 v = true
      · exact hno
      · exfalso
        rcases tvLt_false hv2 hv (by simpa using hno) with hlt | heqv
        · have hpad := encLe_pad (wfEnc_of_wfVal hv) (wfEnc_of_wfVal hv2)
            (by rw [encode_lt_iff v v2 hv hv2]; exact hlt)
            (b := 0) (by omega) (0 :: β)
          rw [bytesLe, hhi] at hpad
          simp at hpad
        · have he : encode v2 = encode v :=
            (encode_eq_iff v2 v hv2 hv).mpr heqv
          rw [he, show (encode v ++ 0 :: β : Bytes) =
              encode v ++ 0 :: β from rfl,
            show (encode v ++ [0] : Bytes) = encode v ++ [0] from rfl,
            bytesLt_append_left, lt_zero_nil] at hhi
          simp at hhi
    · exfalso
      rw [hqr, encodePath_append p r hpn hr,
        show (encodePath p ++ 1 :: encodePath r) ++
          0 :: (encode v2 ++ 0 :: β) =
          encodePath p ++ 1 :: (encodePath r ++ 0 :: (encode v2 ++ 0 :: β))
          from by simp,
        show (encodePath p ++ 0 :: encode v) ++ [0] =
          encodePath p ++ 0 :: (encode v ++ [0]) from by simp,
        bytesLt_append_left, lt_one_zero] at hhi
      simp at hhi
  · rintro ⟨hqp, hlt⟩
    subst hqp
    constructor
    · rw [show encodePath q ++ 0 :: (encode v2 ++ 0 :: β) =
        (encodePath q ++ [0]) ++ (encode v2 ++ 0 :: β) from by simp]
      exact bytesLe_self_append _ _
    · rw [show (encodePath q ++ 0 :: encode v) ++ [0] =
          (encodePath q ++ [0]) ++ (encode v ++ [0]) from by simp,
        show encodePath q ++ 0 :: (encode v2 ++ 0 :: β) =
          (encodePath q ++ [0]) ++ (encode v2 ++ 0 :: β) from by simp,
        bytesLt_append_left]
      exact encLt_pad (wfEnc_of_wfVal hv2) (wfEnc_of_wfVal hv)
        (by rw [encode_lt_iff v2 v hv2 hv]; exact hlt) _ _

/-- The LTE-predicate scan window: path equal and value ≤; extension
paths never fall below the path-value upper bound used as end key. -/
theorem inWindow_lte (p : List TaggableValue) (v : TaggableValue)
    (q : List TaggableValue) (v2 : TaggableValue) (β : Bytes)
    (hp : ∀ c ∈ p, wfComp c = true) (hq : ∀ c ∈ q, wfComp c = true)
    (hv : wfVal v = true) (hv2 : wfVal v2 = true) :
    (bytesLe (encode_index_query_p_start_key p)
        (2 :: 0 :: (encodePath q ++ 0 :: (encode v2 ++ 0 :: β))) = true ∧
     bytesLt (2 :: 0 :: (encodePath q ++ 0 :: (encode v2 ++ 0 :: β)))
        (encode_index_query_pv_end_key p v) = true) ↔
    (q = p ∧ tvLe v2 v = true) := by
  rw [p_start_eq,
    show encode_index_query_pv_end_key p v =
      2 :: 0 :: ((encodePath p ++ 0 :: encode v) ++ [2]) from rfl,
    cc_le, cc_lt]
  constructor
  · rintro ⟨hlo, hhi⟩
    have hhi2 : bytesLt (encodePath q ++ 0 :: (encode v2 ++ 0 :: β))
        (encodePath p ++ [2]) = true := by
      apply bytesLt_of_lt_of_le hhi
      rw [show (encodePath p ++ 0 :: encode v) ++ [2] =
          encodePath p ++ 0 :: (encode v ++ [2]) from by simp,
        bytesLe_append_left]
      exact bytesLe_of_lt (lt_cons_two 0 _ (by omega))
    obtain ⟨b, t, heq, hb⟩ := (window_iff (encodePath p) _).mp ⟨hlo, hhi2⟩
    rcases encodePath_align p q hp hq _ b _ hb heq with
      hqp | ⟨hpn, r, hr, hqr⟩
    · subst hqp
      refine ⟨rfl, ?_⟩
      rw [show (encodePath q ++ 0 :: encode v) ++ [2] =
          (encodePath q ++ [0]) ++ (encode v ++ [2]) from by simp,
        show encodePath q ++ 0 :: (encode v2 ++ 0 :: β) =
          (encodePath q ++ [0]) ++ (encode v2 ++ 0 :: β) from by simp,
        bytesLt_append_left] at hhi
      by_cases hno : tvLe v2 v = true
      · exact hno
      · exfalso
        have hlt : tvLt v v2 = true :=
          tvLe_false hv2 hv (by simpa using hno)
        have hpad := encLe_pad (wfEnc_of_wfVal hv) (wfEnc_of_wfVal hv2)
          (by rw [encode_lt_iff v v2 hv hv2]; exact hlt)
          (b := 2) (by omega) (0 :: β)
        rw [bytesLe, hhi] at hpad
        simp at hpad
    · exfalso
      rw [hqr, encodePath_append p r hpn hr,
        show (encodePath p ++ 1 :: encodePath r) ++
          0 :: (encode v2 ++ 0 :: β) =
          encodePath p ++ 1 :: (encodePath r ++ 0 :: (encode v2 ++ 0 :: β))
          from by simp,
        show (encodePath p ++ 0 :: encode v) ++ [2] =
          encodePath p ++ 0 :: (encode v ++ [2]) from by simp,
        bytesLt_append_left, lt_one_zero] at hhi
      simp at hhi
  · rintro ⟨hqp, hle⟩
    subst hqp
    constructor
    · rw [show encodePath q ++ 0 :: (encode v2 ++ 0 :: β) =
        (encodePath q ++ [0]) ++ (encode v2 ++ 0 :: β) from by simp]
      exact bytesLe_self_append _ _
    · rw [show (encodePath q ++ 0 :: encode v) ++ [2] =
          (encodePath q ++ [0]) ++ (encode v ++ [2]) from by simp,
        show encodePath q ++ 0 :: (encode v2 ++ 0 :: β) =
          (encodePath q ++ [0]) ++ (encode v2 ++ 0 :: β) from by simp,
        bytesLt_append_left]
      simp only [tvLe, Bool.or_eq_true] at hle
      rcases hle with hlt | heqv
      · exact encLt_pad (wfEnc_of_wfVal hv2) (wfEnc_of_wfVal hv)
          (by rw [encode_lt_iff v2 v hv2 hv]; exact hlt) _ _
      · have he : encode v2 = encode v :=
          (encode_eq_iff v2 v hv2 hv).mpr heqv
        rw [he, bytesLt_append_left]
        exact lt_cons_two 0 _ (by omega)

/-- Round trip used by `scan`: the doc id decodes back out of every
index key built from a 0x00-free doc id. -/
theorem decode_encode_index_key (id : Bytes) (hid : ∀ b ∈ id, b ≠ 0)
    (q : List TaggableValue) (v2 : TaggableValue) :
    decode_index_key_docid (encode_index_key id q v2) = .ok id := by
  have hkey : encode_index_key id q v2 =
      [2] ++ 0 :: (encodePath q ++ 0 ::
        (encode v2 ++ 0 :: (jsonTagString :: id))) := by
    simp [encode_index_key, encode]
  have hS : splitOnZero (jsonTagString :: id) = [jsonTagString :: id] := by
    refine splitOnZero_nozero _ ?_
    intro b hb
    rcases List.mem_cons.mp hb with hb | hb
    · subst hb
      simp [jsonTagString]
    · exact hid b hb
  have hsplit : splitOnZero (encode_index_key id q v2) =
      splitOnZero [2] ++ (splitOnZero (encodePath q) ++
        (splitOnZero (encode v2) ++ [jsonTagString :: id])) := by
    rw [hkey, splitOnZero_append, splitOnZero_append, splitOnZero_append, hS]
  have hlast : (splitOnZero [2] ++ (splitOnZero (encodePath q) ++
      (splitOnZero (encode v2) ++ [jsonTagString :: id]))).getLast? =
      some (jsonTagString :: id) := by
    simp [List.getLast?_append]
  unfold decode_index_key_docid
  rw [hsplit, hlast]
  simp [decode_tagged_str]

theorem le_two_one (A B : Bytes) : bytesLe (2 :: A) (1 :: B) = false := by
  rw [bytesLe, bytesLt_cons]
  simp

/-- Document-body keys (prefix 0x01) lie below every index scan range
(prefix 0x02), so `scan` never touches them. -/
theorem dockey_not_scanned (qp : QP) (id : Bytes) :
    bytesLe (qpScan qp).skey (encode_document_key id) = false := by
  cases qp <;> exact le_two_one _ _

/-! ### The executor count map -/

theorem countMap_cons_eq {kv : Bytes × Nat} {rest : List (Bytes × Nat)}
    {id : Bytes} (h : kv.1 = id) : countMap (kv :: rest) id = kv.2 := by
  rw [countMap, List.find?_cons_of_pos _ (by simp [h])]

theorem countMap_cons_ne {kv : Bytes × Nat} {rest : List (Bytes × Nat)}
    {id : Bytes} (h : kv.1 ≠ id) :
    countMap (kv :: rest) id = countMap rest id := by
  rw [countMap, List.find?_cons_of_neg _ (by simp [h]), countMap]

theorem countMap_not_mem {m : List (Bytes × Nat)} {id : Bytes}
    (h : id ∉ m.map Prod.fst) : countMap m id = 0 := by
  induction m with
  | nil => rfl
  | cons kv rest ih =>
    simp only [List.map_cons, List.mem_cons] at h
    rw [countMap_cons_ne (fun he => h (Or.inl he.symm))]
    exact ih (fun hm => h (Or.inr hm))

theorem bumpId_sorted {m : List (Bytes × Nat)}
    (hs : m.Pairwise (fun a b => bytesLt a.1 b.1 = true)) (id : Bytes)
    (first : Bool) :
    (bumpId m id first).Pairwise (fun a b => bytesLt a.1 b.1 = true) := by
  induction m with
  | nil => cases first <;> simp [bumpId]
  | cons kv rest ih =>
    obtain ⟨k, c⟩ := kv
    rw [List.pairwise_cons] at hs
    obtain ⟨hall, hrest⟩ := hs
    by_cases hk : k = id
    · simp only [bumpId, if_pos hk]
      exact List.pairwise_cons.mpr ⟨hall, hrest⟩
    · by_cases hlt : bytesLt id k = true
      · simp only [bumpId, if_neg hk, if_pos hlt]
        cases first
      
        · exact List.pairwise_cons.mpr ⟨hall, hrest⟩
        · refine List.pairwise_cons.mpr ⟨?_, List.pairwise_cons.mpr ⟨hall, hrest⟩⟩
          intro x hx
          rcases List.mem_cons.mp hx with he | hm
          · rw [he]
            exact hlt
          · exact bytesLt_trans hlt (hall x hm)
      · simp only [bumpId, if_neg hk, if_neg hlt]
        refine List.pairwise_cons.mpr ⟨?_, ih hrest⟩
        intro x hx
        have hx2 : x.1 ∈ (bumpId rest id first).map Prod.fst :=
          List.mem_map.mpr ⟨x, hx, rfl⟩
        rcases bumpId_keys rest id first x.1 hx2 with hm | he
        · obtain ⟨y, hy, hyx⟩ := List.mem_map.mp hm
          rw [← hyx]
          exact hall y hy
        · rw [he]
          by_cases hki : bytesLt k id = true
          · exact hki
          · exact absurd (bytesLt_of_ne_false _ _ (by simpa using hki)
              (by simpa using hlt)) hk

theorem countMap_bumpId_self {m : List (Bytes × Nat)}
    (hs : m.Pairwise (fun a b => bytesLt a.1 b.1 = true)) (id : Bytes) :
    countMap (bumpId m id true) id = countMap m id + 1 := by
  induction m with
  | nil =>
    rw [show bumpId [] id true = [(id, 1)] from rfl,
      countMap_cons_eq rfl]
    rfl
  | cons kv rest ih =>
    obtain ⟨k, c⟩ := kv
    rw [List.pairwise_cons] at hs
    obtain ⟨hall, hrest⟩ := hs
    by_cases hk : k = id
    · simp only [bumpId, if_pos hk]
      rw [countMap_cons_eq hk, countMap_cons_eq hk]
    · by_cases hlt : bytesLt id k = true
      · have hstep : bumpId ((k, c) :: rest) id true =
            (id, 1) :: (k, c) :: rest := by
          simp only [bumpId, if_neg hk, if_pos hlt]
          rw [if_pos trivial]
        rw [hstep, countMap_cons_eq rfl, countMap_cons_ne hk]
        have hnm : id ∉ rest.map Prod.fst := by
          intro hm
          obtain ⟨y, hy, hyid⟩ := List.mem_map.mp hm
          have h1 : bytesLt k id = true := by
            rw [← hyid]
            exact hall y hy
          exact absurd (bytesLt_trans hlt h1) (by simp [bytesLt_irrefl])
        rw [countMap_not_mem hnm]
      · simp only [bumpId, if_neg hk, if_neg hlt]
        rw [countMap_cons_ne hk, countMap_cons_ne hk]
        exact ih hrest

theorem countMap_bumpId_ne {m : List (Bytes × Nat)} {i id : Bytes}
    (hne : i ≠ id) (first : Bool) :
    countMap (bumpId m i first) id = countMap m id := by
  induction m with
  | nil =>
    cases first
    · rfl
    · rw [show bumpId [] i true = [(i, 1)] from rfl, countMap_cons_ne hne]
  | cons kv rest ih =>
    obtain ⟨k, c⟩ := kv
    by_cases hk : k = i
    · simp only [bumpId, if_pos hk]
      have hkid : k ≠ id := by
        rw [hk]
        exact hne
      rw [countMap_cons_ne hkid, countMap_cons_ne hkid]
    · by_cases hlt : bytesLt i k = true
      · have hstep : bumpId ((k, c) :: rest) i first =
            (if first then (i, 1) :: (k, c) :: rest else (k, c) :: rest) := by
          simp only [bumpId, if_neg hk, if_pos hlt]
        rw [hstep]
        cases first
        · rw [if_neg (by simp)]
        · rw [if_pos rfl, countMap_cons_ne hne]
      · simp only [bumpId, if_neg hk, if_neg hlt]
        by_cases hkid : k = id
        · rw [countMap_cons_eq hkid, countMap_cons_eq hkid]
        · rw [countMap_cons_ne hkid, countMap_cons_ne hkid]
          exact ih

theorem countMap_foldl (id : Bytes) :
    ∀ (ids : List Bytes) (m : List (Bytes × Nat)),
      m.Pairwise (fun a b => bytesLt a.1 b.1 = true) →
      countMap (ids.foldl (fun m i => bumpId m i true) m) id =
        countMap m id + ids.count id := by
  intro ids
  induction ids with
  | nil =>
    intro m hs
    simp
  | cons i rest ih =>
    intro m hs
    rw [List.foldl_cons, ih (bumpId m i true) (bumpId_sorted hs i true)]
    by_cases hi : i = id
    · subst hi
      rw [countMap_bumpId_self hs]
      simp [List.count_cons]
      omega
    · rw [countMap_bumpId_ne hi]
      simp [List.count_cons, hi]

theorem mem_filter_countMap {m : List (Bytes × Nat)}
    (hs : m.Pairwise (fun a b => bytesLt a.1 b.1 = true)) (id : Bytes)
    {n : Nat} (hn : 0 < n) :
    (id ∈ (m.filter (fun kv => decide (kv.2 = n))).map Prod.fst ↔
      countMap m id = n) := by
  induction m with
  | nil =>
    simp [countMap]
    omega
  | cons kv rest ih =>
    rw [List.pairwise_cons] at hs
    obtain ⟨hall, hrest⟩ := hs
    by_cases hk : kv.1 = id
    · rw [countMap_cons_eq hk]
      have hnot : id ∉ (rest.filter (fun kv => decide (kv.2 = n))).map
          Prod.fst := by
        intro hm
        obtain ⟨y, hy, hyid⟩ := List.mem_map.mp hm
        have hy2 : y ∈ rest := List.mem_of_mem_filter hy
        have := hall y hy2
        rw [hk, hyid] at this
        exact absurd this (by simp [bytesLt_irrefl])
      rw [List.filter_cons]
      by_cases hc : kv.2 = n
      · rw [if_pos (by simp [hc])]
        simp only [List.map_cons, List.mem_cons]
        constructor
        · intro h
          exact hc
        · intro h
          exact Or.inl hk.symm
      · rw [if_neg (by simp [hc])]
        constructor
        · intro h
          exact absurd h hnot
        · intro h
          exact absurd h hc
    · rw [countMap_cons_ne hk, List.filter_cons]
      by_cases hc : kv.2 = n
      · rw [if_pos (by simp [hc])]
        simp only [List.map_cons, List.mem_cons]
        constructor
        · intro h
          rcases h with h | h
          · exact absurd h.symm hk
          · exact (ih hrest).mp h
        · intro h
          exact Or.inr ((ih hrest).mpr h)
      · rw [if_neg (by simp [hc])]
        exact ih hrest

theorem keys_nodup_val_eq {α β : Type} {l : List (α × β)}
    (h : (l.map Prod.fst).Nodup) {a : α} {b b2 : β}
    (h1 : (a, b) ∈ l) (h2 : (a, b2) ∈ l) : b = b2 := by
  induction l with
  | nil => cases h1
  | cons kv rest ih =>
    rw [List.map_cons, List.nodup_cons] at h
    rcases List.mem_cons.mp h1 with e1 | m1 <;>
      rcases List.mem_cons.mp h2 with e2 | m2
    · rw [← e1] at e2
      injection e2 with h3 h4
      exact h4.symm
    · exfalso
      apply h.1
      rw [← e1]
      exact List.mem_map.mpr ⟨(a, b2), m2, rfl⟩
    · exfalso
      apply h.1
      rw [← e2]
      exact List.mem_map.mpr ⟨(a, b), m1, rfl⟩
    · exact ih h.2 m1 m2

theorem scan_count (db : Db) (s e id : Bytes) :
    (scan db s e).count id =
      db.countP (fun kv => bytesLe s kv.1 && bytesLt kv.1 e &&
        decide ((decode_index_key_docid kv.1).toOption = some id)) := by
  rw [scan, List.count_filterMap, dbRange, List.countP_filter]
  apply List.countP_congr
  intro kv hkv
  simp only [Bool.and_eq_true, beq_iff_eq, decide_eq_true_eq]
  constructor
  · rintro ⟨hop, hrange⟩
    exact ⟨⟨hrange.1, hrange.2⟩, hop⟩
  · rintro ⟨⟨h1, h2⟩, hop⟩
    exact ⟨hop, h1, h2⟩

/-- The scan range `search_index` derives for a predicate contains an
index key exactly when the stored path and value satisfy the predicate,
or (for the open-ended GT/GTE scans only) the stored path strictly
extends the predicate path. -/
theorem key_in_scan_iff (qp : QP) (q : List TaggableValue)
    (v2 : TaggableValue) (id : Bytes)
    (hp : ∀ c ∈ qp.p, wfComp c = true) (hv : wfVal qp.v = true)
    (hq : ∀ c ∈ q, wfComp c = true) (hv2 : wfVal v2 = true) :
    (bytesLe (qpScan qp).skey (encode_index_key id q v2) = true ∧
     bytesLt (encode_index_key id q v2) (qpScan qp).ekey = true) ↔
    ((q = qp.p ∧ satisfies qp v2 = true) ∨
     (qpNeedsExt qp = true ∧ qp.p ≠ [] ∧
       ∃ r, r ≠ [] ∧ q = qp.p ++ r)) := by
  cases qp with
  | E p v =>
    have hw := inWindow_eq p v q v2 (encode (.String id)) hp hq hv hv2
    constructor
    · intro h
      exact Or.inl (hw.mp ⟨h.1, h.2⟩)
    · rintro (hok | ⟨hne, -⟩)
      · exact hw.mpr hok
      · simp [qpNeedsExt] at hne
  | GT p v =>
    have hw := inWindow_gt p v q v2 (encode (.String id)) hp hq hv hv2
    constructor
    · intro h
      rcases hw.mp ⟨h.1, h.2⟩ with hok | hex
      · exact Or.inl hok
      · exact Or.inr ⟨rfl, hex⟩
    · rintro (hok | ⟨-, hex⟩)
      · exact hw.mpr (Or.inl hok)
      · exact hw.mpr (Or.inr hex)
  | GTE p v =>
    have hw := inWindow_gte p v q v2 (encode (.String id)) hp hq hv hv2
    constructor
    · intro h
      rcases hw.mp ⟨h.1, h.2⟩ with hok | hex
      · exact Or.inl hok
      · exact Or.inr ⟨rfl, hex⟩
    · rintro (hok | ⟨-, hex⟩)
      · exact hw.mpr (Or.inl hok)
      · exact hw.mpr (Or.inr hex)
  | LT p v =>
    have hw := inWindow_lt p v q v2 (encode (.String id)) hp hq hv hv2
    constructor
    · intro h
      exact Or.inl (hw.mp ⟨h.1, h.2⟩)
    · rintro (hok | ⟨hne, -⟩)
      · exact hw.mpr hok
      · simp [qpNeedsExt] at hne
  | LTE p v =>
    have hw := inWindow_lte p v q v2 (encode (.String id)) hp hq hv hv2
    constructor
    · intro h
      exact Or.inl (hw.mp ⟨h.1, h.2⟩)
    · rintro (hok | ⟨hne, -⟩)
      · exact hw.mpr hok
      · simp [qpNeedsExt] at hne

theorem search_index_single (db : Db) (qp : QP) :
    search_index db [qp] = .ok (execLoop db [qpScan qp] [] 0 0 true) := by
  cases qp <;> rfl

theorem foldl_bumpId_sorted :
    ∀ (ids : List Bytes) (m : List (Bytes × Nat)),
      m.Pairwise (fun a b => bytesLt a.1 b.1 = true) →
      (ids.foldl (fun m i => bumpId m i true) m).Pairwise
        (fun a b => bytesLt a.1 b.1 = true) := by
  intro ids
  induction ids with
  | nil => exact fun m hm => hm
  | cons i rest ih =>
    intro m hm
    exact ih (bumpId m i true) (bumpId_sorted hm i true)

theorem execLoop_single_mem (db : Db) (s : Scan) (id : Bytes) :
    id ∈ (execLoop db [s] [] 0 0 true).results ↔
      (scan db s.skey s.ekey).count id = 1 := by
  by_cases hempty : (scan db s.skey s.ekey).isEmpty = true
  · have hnil := List.isEmpty_iff.mp hempty
    rw [show execLoop db [s] [] 0 0 true = ⟨[], ⟨1⟩⟩ from by
      rw [execLoop]
      simp [hempty]]
    simp [hnil]
  · rw [show execLoop db [s] [] 0 0 true =
        execLoop db []
          ((scan db s.skey s.ekey).foldl (fun m i => bumpId m i true) [])
          1 1 false from by
      conv_lhs => rw [execLoop]
      simp [hempty]]
    rw [execLoop]
    rw [show (QueryResult.mk
        ((((scan db s.skey s.ekey).foldl (fun m i => bumpId m i true)
            []).filter (fun kv => decide (kv.2 = 1))).map Prod.fst)
        ⟨1⟩).results =
      (((scan db s.skey s.ekey).foldl (fun m i => bumpId m i true)
          []).filter (fun kv => decide (kv.2 = 1))).map Prod.fst from rfl]
    rw [mem_filter_countMap
      (foldl_bumpId_sorted _ [] (List.Pairwise.nil)) id (by omega)]
    rw [countMap_foldl id _ [] (List.Pairwise.nil)]
    show 0 + (scan db s.skey s.ekey).count id = 1 ↔
      (scan db s.skey s.ekey).count id = 1
    omega

theorem countP_key_eq (db : Db) (K : Bytes) :
    db.countP (fun kv => decide (kv.1 = K)) = (db.map Prod.fst).count K := by
  induction db with
  | nil => rfl
  | cons kv rest ih =>
    rw [List.countP_cons, List.map_cons, List.count_cons, ih]
    by_cases hk : kv.1 = K
    · rw [if_pos (by simp [hk]), if_pos (by simp [hk])]
    · rw [if_neg (by simp [hk]), if_neg (by simp [hk])]

theorem count_zero_not_mem {l : List Bytes} {a : Bytes} (h : a ∉ l) :
    l.count a = 0 := by
  induction l with
  | nil => rfl
  | cons x rest ih =>
    rw [List.count_cons,
      ih (fun hm => h (List.mem_cons.mpr (Or.inr hm))),
      if_neg (by
        simp only [beq_iff_eq]
        intro he
        exact h (he ▸ List.mem_cons_self x rest))]

theorem count_eq_one_nodup {l : List Bytes} (h : l.Nodup) {a : Bytes}
    (ha : a ∈ l) : l.count a = 1 := by
  induction l with
  | nil => cases ha
  | cons x rest ih =>
    rw [List.nodup_cons] at h
    rw [List.count_cons]
    rcases List.mem_cons.mp ha with he | hm
    · subst he
      rw [if_pos (by simp), count_zero_not_mem h.1]
    · rw [ih h.2 hm, if_neg (by
        simp only [beq_iff_eq]
        intro he
        rw [he] at h
        exact absurd hm h.1)]

/-- C2 (amended): for a store holding exactly the document bodies and
derived index entries of `docs` (invariant I1), with pairwise-distinct
separator-free doc ids, well-formed paths and values (strings free of
the separator bytes 0x00/0x01, numbers 64-bit non-NaN and not negative
zero), per-document distinct flattened paths, a well-formed predicate,
and — for the open-ended GT/GTE scans only — no stored path strictly
extending the predicate path, a document appears in the results of the
single-predicate search exactly when some flattened (path, value) pair
of its body has the predicate path and a value satisfying the
predicate. Without the GT/GTE extension hypothesis the claim is false:
see the counterexample. -/
theorem claim_C2_single_predicate_search
    (db : Db) (docs : List (Bytes × JValue)) (qp : QP)
    (docid : Bytes) (body : JValue)
    (hmem : (docid, body) ∈ docs)
    (hids : (docs.map Prod.fst).Nodup)
    (hdocids : ∀ idb ∈ docs, sepFree idb.1 = true)
    (hpairs : ∀ idb ∈ docs, ∀ pv ∈ get_path_values idb.2,
      (∀ c ∈ pv.1, wfComp c = true) ∧ wfVal pv.2 = true)
    (hpaths : ∀ idb ∈ docs, ((get_path_values idb.2).map Prod.fst).Nodup)
    (hqp : ∀ c ∈ qp.p, wfComp c = true) (hqv : wfVal qp.v = true)
    (hsound : ∀ kv ∈ db,
      (∃ idb ∈ docs, kv.1 = encode_document_key idb.1) ∨
      (∃ idb ∈ docs, ∃ pv ∈ get_path_values idb.2,
        kv.1 = encode_index_key idb.1 pv.1 pv.2))
    (hcomplete : ∀ idb ∈ docs, ∀ pv ∈ get_path_values idb.2,
      encode_index_key idb.1 pv.1 pv.2 ∈ db.map Prod.fst)
    (hnodup : (db.map Prod.fst).Nodup)
    (hext : qpNeedsExt qp = true → ∀ idb ∈ docs,
      ∀ pv ∈ get_path_values idb.2, ∀ r, r ≠ [] → pv.1 ≠ qp.p ++ r)
    (res : QueryResult) (hrun : search_index db [qp] = .ok res) :
    (docid ∈ res.results ↔
      ∃ pv ∈ get_path_values body, pv.1 = qp.p ∧
        satisfies qp pv.2 = true) := by
  have h1 := search_index_single db qp
  have h2 : execLoop db [qpScan qp] [] 0 0 true = res := by
    have h3 := h1.symm.trans hrun
    injection h3 with h4
  rw [← h2, execLoop_single_mem, scan_count]
  have h0free : ∀ b ∈ docid, b ≠ 0 := by
    intro b hb
    have := sepFree_ge2 (hdocids (docid, body) hmem) hb
    omega
  have hchar : ∀ kv, kv ∈ db →
      ((bytesLe (qpScan qp).skey kv.1 && bytesLt kv.1 (qpScan qp).ekey &&
        decide ((decode_index_key_docid kv.1).toOption = some docid))
          = true ↔
       ∃ pv ∈ get_path_values body, pv.1 = qp.p ∧
         satisfies qp pv.2 = true ∧
         kv.1 = encode_index_key docid pv.1 pv.2) := by
    intro kv hkv
    constructor
    · intro h
      simp only [Bool.and_eq_true, decide_eq_true_eq] at h
      obtain ⟨⟨hle, hlt⟩, hdec⟩ := h
      rcases hsound kv hkv with ⟨idb, hidb, hdk⟩ | ⟨idb, hidb, pv2, hpv2, hik⟩
      · exfalso
        rw [hdk, dockey_not_scanned qp idb.1] at hle
        exact absurd hle (by simp)
      · have hwf := hpairs idb hidb pv2 hpv2
        have hsep := hdocids idb hidb
        have h0f : ∀ b ∈ idb.1, b ≠ 0 := by
          intro b hb
          have := sepFree_ge2 hsep hb
          omega
        have hdec2 : decode_index_key_docid kv.1 = .ok idb.1 := by
          rw [hik]
          exact decode_encode_index_key idb.1 h0f pv2.1 pv2.2
        rw [hdec2] at hdec
        simp [Except.toOption] at hdec
        have hidb2 : (docid, idb.2) ∈ docs := by
          rw [← hdec]
          simpa using hidb
        have hbody : idb.2 = body := keys_nodup_val_eq hids hidb2 hmem
        have hwin := (key_in_scan_iff qp pv2.1 pv2.2 idb.1 hqp hqv
          hwf.1 hwf.2).mp ⟨by rw [← hik]; exact hle,
            by rw [← hik]; exact hlt⟩
        rcases hwin with ⟨hqq, hsat⟩ | ⟨hne, -, r, hr, hex2⟩
        · refine ⟨pv2, by rw [← hbody]; exact hpv2, hqq, hsat, ?_⟩
          rw [hik, hdec]
        · exact absurd hex2 (hext hne idb hidb pv2 hpv2 r hr)
    · rintro ⟨pv, hpv, hpp, hps, hk⟩
      have hwf := hpairs (docid, body) hmem pv hpv
      have hdec2 : decode_index_key_docid kv.1 = .ok docid := by
        rw [hk]
        exact decode_encode_index_key docid h0free pv.1 pv.2
      have hwin := (key_in_scan_iff qp pv.1 pv.2 docid hqp hqv
        hwf.1 hwf.2).mpr (Or.inl ⟨hpp, hps⟩)
      simp only [Bool.and_eq_true, decide_eq_true_eq]
      refine ⟨⟨?_, ?_⟩, ?_⟩
      · rw [hk]
        exact hwin.1
      · rw [hk]
        exact hwin.2
      · rw [hdec2]
        rfl
  by_cases hex : ∃ pv ∈ get_path_values body, pv.1 = qp.p ∧
      satisfies qp pv.2 = true
  · obtain ⟨pv, hpv, hpp, hps⟩ := hex
    have hcong : db.countP (fun kv => bytesLe (qpScan qp).skey kv.1 &&
        bytesLt kv.1 (qpScan qp).ekey &&
        decide ((decode_index_key_docid kv.1).toOption = some docid)) =
        db.countP (fun kv =>
          decide (kv.1 = encode_index_key docid pv.1 pv.2)) := by
      apply List.countP_congr
      intro kv hkv
      rw [hchar kv hkv]
      simp only [decide_eq_true_eq]
      constructor
      · rintro ⟨pv2, hpv2, hpp2, hps2, hk2⟩
        have hpv2p : (qp.p, pv2.2) ∈ get_path_values body := by
          rw [← hpp2]
          simpa using hpv2
        have hpvp2 : (qp.p, pv.2) ∈ get_path_values body := by
          rw [← hpp]
          simpa using hpv
        have hv22 : pv2.2 = pv.2 :=
          keys_nodup_val_eq (hpaths (docid, body) hmem) hpv2p hpvp2
        rw [hk2, hpp2, ← hpp, hv22]
      · intro hk2
        exact ⟨pv, hpv, hpp, hps, hk2⟩
    have hmem2 : encode_index_key docid pv.1 pv.2 ∈ db.map Prod.fst :=
      hcomplete (docid, body) hmem pv hpv
    rw [hcong, countP_key_eq, count_eq_one_nodup hnodup hmem2]
    exact ⟨fun _ => ⟨pv, hpv, hpp, hps⟩, fun _ => rfl⟩
  · have hzero : db.countP (fun kv => bytesLe (qpScan qp).skey kv.1 &&
        bytesLt kv.1 (qpScan qp).ekey &&
        decide ((decode_index_key_docid kv.1).toOption = some docid))
          = 0 := by
      rw [List.countP_eq_zero]
      intro kv hkv hP
      obtain ⟨pv, hpv, hpp, hps, -⟩ := (hchar kv hkv).mp hP
      exact hex ⟨pv, hpv, hpp, hps⟩
    rw [hzero]
    constructor
    · intro h
      exact absurd h (by omega)
    · intro h
      exact absurd h hex

/-- C2 counterexample (original claim): for the stored document
`"d" ↦ {"a": {"b": 1.0}}` the query `GTE(["a"], 100.0)` returns "d" —
its index key at path `["a","b"]` lies inside the GTE scan range, which
ends at the path upper bound — although no flattened (path, value) pair
of the body lies at path `["a"]` or satisfies the predicate (1.0 <
100.0). -/
theorem claim_C2_counterexample :
    search_index
        (setDocs [([100],
          .obj [([97], .obj [([98], .num (natToF64bits 1))])])])
        [QP.GTE [.String [97]] (.Number (natToF64bits 100))] =
      .ok ⟨[[100]], ⟨1⟩⟩ ∧
    ¬∃ pv ∈ get_path_values
        (JValue.obj [([97], .obj [([98], .num (natToF64bits 1))])]),
      pv.1 = [TaggableValue.String [97]] ∧
      satisfies (QP.GTE [.String [97]] (.Number (natToF64bits 100)))
        pv.2 = true :=
  ⟨rfl, by decide⟩

/-- C2 witness: the amended theorem applied to the one-document store
`"d" ↦ {"a": 5.0}` and the predicate `E(["a"], 5.0)`, every hypothesis
discharged by computation. -/
theorem claim_C2_single_predicate_search_witness :
    (([100] : Bytes) ∈ (QueryResult.mk [[100]] ⟨1⟩).results ↔
      ∃ pv ∈ get_path_values
          (JValue.obj [([97], .num (natToF64bits 5))]),
        pv.1 = [TaggableValue.String [97]] ∧
        satisfies (QP.E [.String [97]] (.Number (natToF64bits 5)))
          pv.2 = true) :=
  claim_C2_single_predicate_search
    (setDocs [([100], .obj [([97], .num (natToF64bits 5))])])
    [([100], .obj [([97], .num (natToF64bits 5))])]
    (QP.E [.String [97]] (.Number (natToF64bits 5)))
    [100] (.obj [([97], .num (natToF64bits 5))])
    (List.Mem.head _)
    (by decide)
    (by decide)
    (by decide)
    (by decide)
    (by decide)
    (by decide)
    (by decide)
    (by decide)
    (by decide)
    (fun h => absurd h (by decide))
    (QueryResult.mk [[100]] ⟨1⟩)
    rfl

end DocDb
